import Mathlib

set_option linter.unusedSectionVars false
set_option linter.unusedVariables false

/-!
# Verification of the gigagrad scalar autodiff engine

A shallow embedding of the reverse-mode automatic-differentiation core
(`src/value.rs`) and the network-composition layer (`src/neuron.rs`).

Graph nodes in the Rust code are `Rc<RefCell<ValueData>>`; node identity is
pointer identity.  We model the heap as an arena: a list of `ValueData`
records addressed by stable indices (`NodeId`), so pointer identity becomes
index identity and the `HashSet<usize>` of `Rc::as_ptr` values used by
`build_topo` becomes a list of visited indices.  Fresh allocation
(`Rc::new`) is modelled by appending to the arena, so a node's operands
always have strictly smaller indices (`WF`), which is exactly the acyclicity
guaranteed structurally in Rust by the fact that new nodes are only created
from already-existing nodes.

Scalars (`f64` in Rust) are modelled as elements of an arbitrary commutative
ring `A`; the two transcendental primitives `f64::powf` and `f64::tanh` are
taken as abstract function parameters `fpow : A → A → A` and `ftanh : A → A`,
since the code only ever applies them pointwise.  Fallible operations
(`Option::unwrap`, slice indexing) are modelled in the `Option` monad.
-/

namespace Gigagrad

/-- `Oper` mirrors the Rust `enum Oper { Add, Sub, Mul, Pow(f64), Leaf, Tanh }`.
Note there is no `Div` constructor: division is not a primitive operator. -/
inductive Oper (A : Type) where
  | add : Oper A
  | sub : Oper A
  | mul : Oper A
  | pow : A → Oper A
  | leaf : Oper A
  | tanh : Oper A
deriving DecidableEq, Repr

/-- Arena index of a node; models `Rc::as_ptr` pointer identity. -/
abbrev NodeId := Nat

/-- Mirrors the Rust `struct ValueData { data: f64, grad: Option<f64>,
_prev: Vec<Value>, _op: Oper }`. -/
structure ValueData (A : Type) where
  data : A
  grad : Option A
  prev : List NodeId
  op : Oper A
deriving DecidableEq, Repr

/-- The arena of allocated nodes: the index of a record is its identity. -/
abbrev Store (A : Type) := List (ValueData A)

variable {A : Type} [CommRing A]

/-- Allocate a fresh node (models `Rc::new(RefCell::new(..))`): append to the
arena and return the new index. -/
def push (st : Store A) (nd : ValueData A) : Store A × NodeId :=
  (st ++ [nd], st.length)

/-- `Value::data(&self) -> f64` (reads the current value; `0` for a dangling
index, which the Rust type system rules out). -/
def dataOf (st : Store A) (id : NodeId) : A :=
  ((st.get? id).map (fun nd => nd.data)).getD 0

/-- `Value::grad(&self) -> Option<f64>`. -/
def gradOf (st : Store A) (id : NodeId) : Option A :=
  ((st.get? id).map (fun nd => nd.grad)).getD none

/-- The operand list of a node (`_prev`); `[]` for a dangling index. -/
def prevOf (st : Store A) (id : NodeId) : List NodeId :=
  ((st.get? id).map (fun nd => nd.prev)).getD []

/-- `Value::op(&self) -> Oper`. -/
def opOf (st : Store A) (id : NodeId) : Option (Oper A) :=
  (st.get? id).map (fun nd => nd.op)

/-- `Value::new(data)`: a Leaf with no operands and gradient unset. -/
def vnew (st : Store A) (d : A) : Store A × NodeId :=
  push st ⟨d, none, [], Oper.leaf⟩

/-- `impl Add for &Value`: eager forward value, fresh node, gradient unset. -/
def vadd (st : Store A) (a b : NodeId) : Store A × NodeId :=
  push st ⟨dataOf st a + dataOf st b, none, [a, b], Oper.add⟩

/-- `impl Sub for &Value`. -/
def vsub (st : Store A) (a b : NodeId) : Store A × NodeId :=
  push st ⟨dataOf st a - dataOf st b, none, [a, b], Oper.sub⟩

/-- `impl Mul for &Value`. -/
def vmul (st : Store A) (a b : NodeId) : Store A × NodeId :=
  push st ⟨dataOf st a * dataOf st b, none, [a, b], Oper.mul⟩

/-- `Value::pow(&self, exponent)`: data is `self.data().powf(exponent)`. -/
def vpow (fpow : A → A → A) (st : Store A) (a : NodeId) (e : A) : Store A × NodeId :=
  push st ⟨fpow (dataOf st a) e, none, [a], Oper.pow e⟩

/-- `Value::tanh(&self)`. -/
def vtanh (ftanh : A → A) (st : Store A) (a : NodeId) : Store A × NodeId :=
  push st ⟨ftanh (dataOf st a), none, [a], Oper.tanh⟩

/-- `impl Div for Value`: literally `self * other.pow(-1.0)` — no dedicated
node kind, no guard against a zero divisor. -/
def vdiv (fpow : A → A → A) (st : Store A) (a b : NodeId) : Store A × NodeId :=
  let p := vpow fpow st b (-1)
  vmul p.1 a p.2

/-- `impl Neg for Value`: `self * -1.0`, where the float constant is first
lifted into an anonymous Leaf by `Mul<f64> for Value`. -/
def vneg (st : Store A) (a : NodeId) : Store A × NodeId :=
  let m := vnew st (-1)
  vmul m.1 a m.2

/-- `Value::update(&self, learning_rate)`:
`param.data += -learning_rate * param.grad.unwrap()`.
The `unwrap` panics when the gradient is unset, modelled as `none`. -/
def vupdate (st : Store A) (id : NodeId) (lr : A) : Option (Store A) :=
  match st.get? id with
  | none => none
  | some nd =>
    match nd.grad with
    | none => none
    | some g => some (st.set id { nd with data := nd.data + -lr * g })

/-- Write `grad := some g` into node `id` (no-op on a dangling index). -/
def setGrad (st : Store A) (id : NodeId) (g : A) : Store A :=
  match st.get? id with
  | none => st
  | some nd => st.set id { nd with grad := some g }

/-- `child.grad = Some(child.grad.unwrap_or(0.0) + c)`: accumulate a
contribution `c` onto a node's gradient, an unset gradient counting as `0`. -/
def addGrad (st : Store A) (id : NodeId) (c : A) : Store A :=
  setGrad st id ((gradOf st id).getD 0 + c)

/-- One iteration of the reverse walk in `Value::backprop`: read this node's
(already final) gradient with `unwrap`, then push a contribution onto each
operand per the operator's local rule.  Operand slots are read with the
fallible `_prev[0]` / `_prev[1]` indexing of the Rust code. -/
def backstep (fpow : A → A → A) (st : Store A) (id : NodeId) : Option (Store A) :=
  match st.get? id with
  | none => none
  | some nd =>
    match nd.grad with
    | none => none
    | some g =>
      match nd.op with
      | Oper.add => some (nd.prev.foldl (fun s c => addGrad s c g) st)
      | Oper.sub =>
        match nd.prev.get? 0, nd.prev.get? 1 with
        | some a, some b => some (addGrad (addGrad st a g) b (-g))
        | _, _ => none
      | Oper.mul =>
        match nd.prev.get? 0, nd.prev.get? 1 with
        | some a, some b =>
          some (addGrad (addGrad st a (dataOf st b * g)) b (dataOf st a * g))
        | _, _ => none
      | Oper.pow e =>
        match nd.prev.get? 0 with
        | some a => some (addGrad st a (e * fpow (dataOf st a) (e - 1) * g))
        | none => none
      | Oper.tanh =>
        match nd.prev.get? 0 with
        | some a => some (addGrad st a ((1 - nd.data ^ 2) * g))
        | none => none
      | Oper.leaf => some st

/-- `Value::build_topo`: depth-first postorder with visited-set
deduplication keyed by node identity.  The Rust recursion is structural on
the graph; here termination is made explicit with a fuel argument (under
`WF` a fuel of `id + 1` is always enough, since operands have strictly
smaller indices). -/
def buildTopoAux (st : Store A) :
    Nat → NodeId → List NodeId × List NodeId → List NodeId × List NodeId
  | 0, _, s => s
  | fuel + 1, id, s =>
    if id ∈ s.1 then s
    else
      let s1 := (prevOf st id).foldl (fun t c => buildTopoAux st fuel c t) (id :: s.1, s.2)
      (s1.1, s1.2 ++ [id])

/-- Top-level `build_topo` call as made by `backprop`: empty visited set and
empty order.  Returns `(visited, topo)`. -/
def buildTopo (st : Store A) (root : NodeId) : List NodeId × List NodeId :=
  buildTopoAux st (root + 1) root ([], [])

/-- The seeding step of `backprop`: `if root.grad.is_none() { root.grad = Some(1.0) }`. -/
def seedRoot (st : Store A) (root : NodeId) : Store A :=
  match gradOf st root with
  | none => setGrad st root 1
  | some _ => st

/-- The reverse walk of `backprop`: `for node in topo.iter().rev() { .. }`,
each step fallible through the `unwrap`s in `backstep`. -/
def runBack (fpow : A → A → A) : Store A → List NodeId → Option (Store A)
  | st, [] => some st
  | st, id :: rest =>
    match backstep fpow st id with
    | none => none
    | some st1 => runBack fpow st1 rest

/-- `Value::backprop(&self)`: build the topological order, seed the root
gradient, then walk the order in reverse accumulating gradients. -/
def backprop (fpow : A → A → A) (st : Store A) (root : NodeId) : Option (Store A) :=
  let topo := (buildTopo st root).2
  runBack fpow (seedRoot st root) topo.reverse

/-- Arena well-formedness: every operand index is strictly smaller than the
node's own index.  Every store built by the constructors above satisfies
this; it is the structural acyclicity invariant of the Rust graph. -/
def WF (st : Store A) : Prop :=
  ∀ i, i < st.length → ∀ c ∈ prevOf st i, c < i

instance (st : Store A) : Decidable (WF st) := by
  unfold WF
  exact Nat.decidableBallLT _ _

/-- Reachability through operand edges, from a node down to its ancestors. -/
inductive Reach (st : Store A) : NodeId → NodeId → Prop
  | refl (n : NodeId) : Reach st n n
  | head {a c b : NodeId} : c ∈ prevOf st a → Reach st c b → Reach st a b

/-- `Neuron` (`src/neuron.rs`): the ids of the weight Leaves plus the bias
Leaf.  (The Rust struct also stores `input_size`, which is dead code —
marked `#[allow(dead_code)]` — and never read; it is omitted here.) -/
structure Neuron where
  bias : NodeId
  weights : List NodeId
deriving DecidableEq, Repr

/-- `Neuron::call`: `sum = bias.clone(); for (i, w) in
inputs.iter().zip(&self.weights) { sum = sum + (w * i) } sum.tanh()`.
Note `zip` stops at the shorter of the two sequences. -/
def neuronCall (ftanh : A → A) (st : Store A) (n : Neuron) (inputs : List NodeId) :
    Store A × NodeId :=
  let s := (inputs.zip n.weights).foldl
    (fun acc iw =>
      let p := vmul acc.1 iw.2 iw.1
      vadd p.1 acc.2 p.2) (st, n.bias)
  vtanh ftanh s.1 s.2

/-- `Layer`: a vector of neurons (the stored sizes are only used for
allocation capacity and printing). -/
structure Layer where
  neurons : List Neuron
deriving DecidableEq, Repr

/-- `Layer::forward`: each neuron applied to the same inputs, in order. -/
def layerForward (ftanh : A → A) (st : Store A) (l : Layer) (inputs : List NodeId) :
    Store A × List NodeId :=
  l.neurons.foldl (fun acc n =>
    let r := neuronCall ftanh acc.1 n inputs
    (r.1, acc.2 ++ [r.2])) (st, [])

/-- `MLP`: a sequence of layers. -/
structure MLP where
  layers : List Layer
deriving DecidableEq, Repr

/-- `MLP::forward`: fold each layer over the previous layer's outputs. -/
def mlpForward (ftanh : A → A) (st : Store A) (m : MLP) (inputs : List NodeId) :
    Store A × List NodeId :=
  m.layers.foldl (fun acc l => layerForward ftanh acc.1 l acc.2) (st, inputs)

/-- The arena `st'` extends `st`: existing nodes are untouched and every
node allocated on top of `st` has its gradient unset. -/
def Extends (st st' : Store A) : Prop :=
  ∃ Δ, st' = st ++ Δ ∧ ∀ nd ∈ Δ, nd.grad = none

/-- The forward value a neuron computes, as a pure function of the data
environment `dat` (for its weight and bias ids) and the input values `xs`. -/
def neuronValV (ftanh : A → A) (dat : NodeId → A) (n : Neuron) (xs : List A) : A :=
  ftanh ((xs.zip (n.weights.map dat)).foldl (fun v xw => v + xw.2 * xw.1) (dat n.bias))

/-- Pure forward values of a layer. -/
def layerValsV (ftanh : A → A) (dat : NodeId → A) (l : Layer) (xs : List A) : List A :=
  l.neurons.map (fun n => neuronValV ftanh dat n xs)

/-- Pure forward values of an MLP. -/
def mlpValsV (ftanh : A → A) (dat : NodeId → A) (m : MLP) (xs : List A) : List A :=
  m.layers.foldl (fun xs l => layerValsV ftanh dat l xs) xs

/-- All parameter ids of a neuron live below `N`. -/
def NeuronIds (n : Neuron) (N : Nat) : Prop :=
  n.bias < N ∧ ∀ w ∈ n.weights, w < N

/-- All parameter ids of a layer live below `N`. -/
def LayerIds (l : Layer) (N : Nat) : Prop :=
  ∀ n ∈ l.neurons, NeuronIds n N

/-- All parameter ids of an MLP live below `N`. -/
def MLPIds (m : MLP) (N : Nat) : Prop :=
  ∀ l ∈ m.layers, LayerIds l N

instance (n : Neuron) (N : Nat) : Decidable (NeuronIds n N) := by
  unfold NeuronIds
  infer_instance

instance (l : Layer) (N : Nat) : Decidable (LayerIds l N) := by
  unfold LayerIds
  infer_instance

instance (m : MLP) (N : Nat) : Decidable (MLPIds m N) := by
  unfold MLPIds
  infer_instance

/-- The operand-count discipline the constructors establish for each
operator: binary nodes carry two operands, unary nodes one, leaves none
(`Add` is processed by iterating over all operands, so any count works). -/
def opArityOkB (o : Option (Oper A)) (l : List NodeId) : Bool :=
  match o with
  | some Oper.sub => l.length == 2
  | some Oper.mul => l.length == 2
  | some (Oper.pow _) => l.length == 1
  | some Oper.tanh => l.length == 1
  | some Oper.leaf => l.isEmpty
  | _ => true

/-- Every node of the arena satisfies the operand-count discipline.  All
stores built by the forward constructors satisfy this. -/
def ArityOk (st : Store A) : Prop :=
  ∀ i, i < st.length → opArityOkB (opOf st i) (prevOf st i) = true

instance (st : Store A) : Decidable (ArityOk st) := by
  unfold ArityOk
  exact Nat.decidableBallLT _ _

/-- `T` is topologically sorted for `st`: every operand of a member of `T`
is itself a member and appears strictly earlier. -/
def OrderedAfter (st : Store A) (T : List NodeId) : Prop :=
  ∀ n ∈ T, ∀ m ∈ prevOf st n, m ∈ T ∧ List.indexOf m T < List.indexOf n T

/-- Node `n` has a consumer strictly later in `T`: some member of `T` lists
`n` among its operands and appears after `n`. -/
def HasLater (st : Store A) (T : List NodeId) (n : NodeId) : Prop :=
  ∃ p ∈ T, n ∈ prevOf st p ∧ List.indexOf n T < List.indexOf p T

/-- Invariants of the visited set `V` and order `T` holding before a
`build_topo` call on `id`. -/
def TopoPre (st : Store A) (id : NodeId) (V T : List NodeId) : Prop :=
  T.Nodup ∧ (∀ n ∈ T, n ∈ V) ∧ OrderedAfter st T ∧
  (∀ n ∈ T, HasLater st T n ∨ ∃ s ∈ V, s ∉ T ∧ n ∈ prevOf st s) ∧
  (∀ v ∈ V, v ∉ T → id < v)

/-- Guarantees on `(V', T')` after a `build_topo` call on `id` starting
from `(V, T)`. -/
def TopoPost (st : Store A) (id : NodeId) (V T V' T' : List NodeId) : Prop :=
  T'.Nodup ∧ (∀ n ∈ T', n ∈ V') ∧ OrderedAfter st T' ∧
  (∃ Δ, T' = T ++ Δ) ∧
  (∀ v ∈ V', v ∉ T' → v ∈ V ∧ v ∉ T) ∧
  (∀ v ∈ V, v ∈ V') ∧
  (∀ n, n ∈ T' ↔ (n ∈ T ∨ Reach st id n)) ∧
  (∀ n ∈ T', HasLater st T' n ∨ (∃ s ∈ V', s ∉ T' ∧ n ∈ prevOf st s) ∨ n = id)

/-- Invariants before folding `build_topo` over a list of children `cs`. -/
def FoldPre (st : Store A) (cs V0 T0 : List NodeId) : Prop :=
  T0.Nodup ∧ (∀ n ∈ T0, n ∈ V0) ∧ OrderedAfter st T0 ∧
  (∀ n ∈ T0, HasLater st T0 n ∨ ∃ s ∈ V0, s ∉ T0 ∧ n ∈ prevOf st s) ∧
  (∀ v ∈ V0, v ∉ T0 → ∀ c ∈ cs, c < v) ∧
  (∀ c ∈ cs, ∃ p, p ∈ V0 ∧ p ∉ T0 ∧ c ∈ prevOf st p)

/-- Guarantees after folding `build_topo` over a list of children `cs`. -/
def FoldPost (st : Store A) (cs V0 T0 V1 T1 : List NodeId) : Prop :=
  T1.Nodup ∧ (∀ n ∈ T1, n ∈ V1) ∧ OrderedAfter st T1 ∧
  (∃ Δ, T1 = T0 ++ Δ) ∧
  (∀ v ∈ V1, v ∉ T1 → v ∈ V0 ∧ v ∉ T0) ∧
  (∀ v ∈ V0, v ∈ V1) ∧
  (∀ n, n ∈ T1 ↔ (n ∈ T0 ∨ ∃ c ∈ cs, Reach st c n)) ∧
  (∀ n ∈ T1, HasLater st T1 n ∨ ∃ s ∈ V1, s ∉ T1 ∧ n ∈ prevOf st s)

/-! ## Concrete stores used to exercise the theorems -/

/-- `a = leaf(3)` (node 0), `a*a` (node 1), `c = (a*a) + a` (node 2):
the sharing test graph of the spec. -/
def stC2 : Store Int :=
  (vadd (vmul (vnew ([] : Store Int) 3).1 0 0).1 1 0).1

/-- Two leaves `2` (node 0) and `5` (node 1), a `Mul` node over them
(node 2) whose gradient has been set to `1`. -/
def stW1 : Store Int :=
  setGrad (vmul (vnew (vnew ([] : Store Int) 2).1 5).1 0 1).1 2 1

/-- First training pass: `a = leaf(3)` (node 0), `c1 = a + a` (node 1). -/
def stP1 : Store Int :=
  (vadd (vnew ([] : Store Int) 3).1 0 0).1

/-- Four leaves: weights `2` (node 0) and `99` (node 1), bias `3`
(node 2), input `5` (node 3). -/
def stN : Store Int :=
  (vnew (vnew (vnew (vnew ([] : Store Int) 2).1 99).1 3).1 5).1

/-- A two-weight neuron over `stN`, to be called with a single input. -/
def nMis : Neuron := ⟨2, [0, 1]⟩

/-- One leaf of value `10` (node 0) whose gradient has been set to `4`. -/
def stW2 : Store Int :=
  setGrad (vnew ([] : Store Int) 10).1 0 4

/-- Three leaves: weight `2` (node 0), bias `3` (node 1), input `5` (node 2). -/
def stM : Store Int :=
  (vnew (vnew (vnew ([] : Store Int) 2).1 3).1 5).1

/-- A one-layer, one-neuron MLP over `stM`. -/
def mM : MLP := ⟨[⟨[⟨1, [0]⟩]⟩]⟩

/-! ## Basic arena lemmas -/

theorem get_of_lt (st : Store A) (i : NodeId) (h : i < st.length) :
    ∃ nd, st.get? i = some nd := by
  rw [List.get?_eq_getElem?, List.getElem?_eq_getElem h]
  exact ⟨_, rfl⟩

theorem prevOf_of_ge (st : Store A) (i : NodeId) (h : st.length ≤ i) :
    prevOf st i = [] := by
  unfold prevOf
  rw [List.get?_eq_getElem?, List.getElem?_eq_none (by omega)]
  rfl

theorem wf_all {st : Store A} (hwf : WF st) :
    ∀ i, ∀ c ∈ prevOf st i, c < i := by
  intro i c hc
  by_cases h : i < st.length
  · exact hwf i h c hc
  · rw [prevOf_of_ge st i (le_of_not_lt h)] at hc
    exact absurd hc (List.not_mem_nil c)

theorem length_setGrad (st : Store A) (id : NodeId) (g : A) :
    (setGrad st id g).length = st.length := by
  unfold setGrad
  cases st.get? id with
  | none => rfl
  | some nd => exact List.length_set st id _

theorem get_setGrad (st : Store A) (id : NodeId) (g : A) (j : NodeId) :
    (setGrad st id g).get? j =
      if j = id then (st.get? j).map (fun nd => { nd with grad := some g }) else st.get? j := by
  unfold setGrad
  cases hnd : st.get? id with
  | none =>
    by_cases h : j = id
    · subst h
      rw [if_pos rfl, hnd]
      rfl
    · rw [if_neg h]
  | some nd =>
    have hlt : id < st.length := by
      rw [List.get?_eq_getElem?] at hnd
      exact (List.getElem?_eq_some.mp hnd).1
    by_cases h : j = id
    · subst h
      rw [if_pos rfl, hnd]
      simp only [List.get?_eq_getElem?, List.getElem?_set]
      rw [if_pos trivial, if_pos hlt]
      rfl
    · rw [if_neg h]
      simp only [List.get?_eq_getElem?, List.getElem?_set]
      rw [if_neg (fun he => h he.symm)]

theorem gradOf_setGrad_self (st : Store A) (id : NodeId) (g : A) (h : id < st.length) :
    gradOf (setGrad st id g) id = some g := by
  obtain ⟨nd, hnd⟩ := get_of_lt st id h
  unfold gradOf
  rw [get_setGrad, if_pos rfl, hnd]
  rfl

theorem gradOf_setGrad_ne (st : Store A) (id : NodeId) (g : A) (j : NodeId) (h : j ≠ id) :
    gradOf (setGrad st id g) j = gradOf st j := by
  unfold gradOf
  rw [get_setGrad, if_neg h]

theorem dataOf_setGrad (st : Store A) (id : NodeId) (g : A) (j : NodeId) :
    dataOf (setGrad st id g) j = dataOf st j := by
  unfold dataOf
  rw [get_setGrad]
  by_cases h : j = id
  · rw [if_pos h]
    cases st.get? j <;> rfl
  · rw [if_neg h]

theorem prevOf_setGrad (st : Store A) (id : NodeId) (g : A) (j : NodeId) :
    prevOf (setGrad st id g) j = prevOf st j := by
  unfold prevOf
  rw [get_setGrad]
  by_cases h : j = id
  · rw [if_pos h]
    cases st.get? j <;> rfl
  · rw [if_neg h]

theorem opOf_setGrad (st : Store A) (id : NodeId) (g : A) (j : NodeId) :
    opOf (setGrad st id g) j = opOf st j := by
  unfold opOf
  rw [get_setGrad]
  by_cases h : j = id
  · rw [if_pos h]
    cases st.get? j <;> rfl
  · rw [if_neg h]

theorem length_addGrad (st : Store A) (id : NodeId) (c : A) :
    (addGrad st id c).length = st.length :=
  length_setGrad st id _

theorem gradOf_addGrad_self (st : Store A) (id : NodeId) (c : A) (h : id < st.length) :
    gradOf (addGrad st id c) id = some ((gradOf st id).getD 0 + c) :=
  gradOf_setGrad_self st id _ h

theorem gradOf_addGrad_ne (st : Store A) (id : NodeId) (c : A) (j : NodeId) (h : j ≠ id) :
    gradOf (addGrad st id c) j = gradOf st j :=
  gradOf_setGrad_ne st id _ j h

theorem dataOf_addGrad (st : Store A) (id : NodeId) (c : A) (j : NodeId) :
    dataOf (addGrad st id c) j = dataOf st j :=
  dataOf_setGrad st id _ j

theorem prevOf_addGrad (st : Store A) (id : NodeId) (c : A) (j : NodeId) :
    prevOf (addGrad st id c) j = prevOf st j :=
  prevOf_setGrad st id _ j

theorem opOf_addGrad (st : Store A) (id : NodeId) (c : A) (j : NodeId) :
    opOf (addGrad st id c) j = opOf st j :=
  opOf_setGrad st id _ j

theorem gradOf_eq_of_get (st : Store A) (id : NodeId) (nd : ValueData A)
    (h : st.get? id = some nd) : gradOf st id = nd.grad := by
  unfold gradOf
  rw [h]
  rfl

theorem dataOf_eq_of_get (st : Store A) (id : NodeId) (nd : ValueData A)
    (h : st.get? id = some nd) : dataOf st id = nd.data := by
  unfold dataOf
  rw [h]
  rfl

theorem prevOf_eq_of_get (st : Store A) (id : NodeId) (nd : ValueData A)
    (h : st.get? id = some nd) : prevOf st id = nd.prev := by
  unfold prevOf
  rw [h]
  rfl

theorem opOf_eq_of_get (st : Store A) (id : NodeId) (nd : ValueData A)
    (h : st.get? id = some nd) : opOf st id = some nd.op := by
  unfold opOf
  rw [h]
  rfl

/-! ## Reachability and topological-order lemmas -/

theorem reach_le {st : Store A} (hwf : WF st) {a b : NodeId} (h : Reach st a b) : b ≤ a := by
  induction h with
  | refl => exact le_refl _
  | head hc _ ih => exact le_trans ih (le_of_lt (wf_all hwf _ _ hc))

theorem reach_iff (st : Store A) (a n : NodeId) :
    Reach st a n ↔ n = a ∨ ∃ c ∈ prevOf st a, Reach st c n := by
  constructor
  · intro h
    cases h with
    | refl => exact Or.inl rfl
    | head hc hr => exact Or.inr ⟨_, hc, hr⟩
  · rintro (rfl | ⟨c, hc, hr⟩)
    · exact Reach.refl n
    · exact Reach.head hc hr

theorem orderedAfter_reach_mem {st : Store A} {T : List NodeId}
    (h : OrderedAfter st T) {n m : NodeId} (hn : n ∈ T) (hr : Reach st n m) : m ∈ T := by
  induction hr with
  | refl => exact hn
  | head hc _ ih => exact ih ((h _ hn _ hc).1)

theorem orderedAfter_append {st : Store A} {T : List NodeId} {x : NodeId}
    (h : OrderedAfter st T) (hx : ∀ m ∈ prevOf st x, m ∈ T) (hxT : x ∉ T) :
    OrderedAfter st (T ++ [x]) := by
  intro n hn m hm
  rcases List.mem_append.mp hn with hnT | hnx
  · obtain ⟨hmT, hlt⟩ := h n hnT m hm
    refine ⟨List.mem_append.mpr (Or.inl hmT), ?_⟩
    rw [List.indexOf_append_of_mem hmT, List.indexOf_append_of_mem hnT]
    exact hlt
  · have hnx : n = x := List.mem_singleton.mp hnx
    subst hnx
    have hmT := hx m hm
    refine ⟨List.mem_append.mpr (Or.inl hmT), ?_⟩
    rw [List.indexOf_append_of_mem hmT, List.indexOf_append_of_not_mem hxT]
    have hml : List.indexOf m T < T.length := List.indexOf_lt_length.mpr hmT
    have : List.indexOf n [n] = 0 := List.indexOf_cons_self n []
    omega

theorem hasLater_append {st : Store A} {T : List NodeId} {x n : NodeId}
    (h : HasLater st T n) : HasLater st (T ++ [x]) n := by
  obtain ⟨p, hp, hnp, hidx⟩ := h
  have hnT : n ∈ T :=
    List.indexOf_lt_length.mp (lt_trans hidx (List.indexOf_lt_length.mpr hp))
  refine ⟨p, List.mem_append.mpr (Or.inl hp), hnp, ?_⟩
  rw [List.indexOf_append_of_mem hnT, List.indexOf_append_of_mem hp]
  exact hidx

/-- Folding `build_topo` over a list of children preserves the invariants
and adds exactly the nodes reachable from the children. -/
theorem foldTopo_spec {st : Store A} (hwf : WF st) (fuel : Nat)
    (IH : ∀ id V T, id < fuel → TopoPre st id V T →
      TopoPost st id V T (buildTopoAux st fuel id (V, T)).1 (buildTopoAux st fuel id (V, T)).2) :
    ∀ cs V0 T0, (∀ c ∈ cs, c < fuel) → FoldPre st cs V0 T0 →
      FoldPost st cs V0 T0 (cs.foldl (fun t c => buildTopoAux st fuel c t) (V0, T0)).1
        (cs.foldl (fun t c => buildTopoAux st fuel c t) (V0, T0)).2 := by
  intro cs
  induction cs with
  | nil =>
    intro V0 T0 _ hpre
    obtain ⟨p1, p2, p3, p4, _, _⟩ := hpre
    refine ⟨p1, p2, p3, ⟨[], (List.append_nil T0).symm⟩, fun v hv hnv => ⟨hv, hnv⟩,
      fun v hv => hv, ?_, p4⟩
    intro n
    constructor
    · exact Or.inl
    · rintro (h | ⟨c, hc, _⟩)
      · exact h
      · exact absurd hc (List.not_mem_nil c)
  | cons c cs ihl =>
    intro V0 T0 hlt hpre
    obtain ⟨p1, p2, p3, p4, p5, p6⟩ := hpre
    have hcfuel : c < fuel := hlt c (List.mem_cons_self c cs)
    have hIH := IH c V0 T0 hcfuel
      ⟨p1, p2, p3, p4, fun v hv hnv => p5 v hv hnv c (List.mem_cons_self c cs)⟩
    -- abbreviations for the state after the head call
    set Va := (buildTopoAux st fuel c (V0, T0)).1 with hVa
    set Ta := (buildTopoAux st fuel c (V0, T0)).2 with hTa
    obtain ⟨g1, g2, g3, ⟨Δ1, g4⟩, g5, g6, g7, g8⟩ := hIH
    have hgoal : List.foldl (fun t c => buildTopoAux st fuel c t) (V0, T0) (c :: cs)
        = List.foldl (fun t c => buildTopoAux st fuel c t) (Va, Ta) cs := by
      rw [List.foldl_cons]
    -- elements added by the head call are reachable from `c`, hence ≤ c
    have hTa_le : ∀ n ∈ Ta, n ∉ T0 → n ≤ c := by
      intro n hn hn0
      rcases (g7 n).mp hn with h | h
      · exact absurd h hn0
      · exact reach_le hwf h
    -- any on-stack node stays outside Ta
    have hstk_out : ∀ v, v ∈ V0 → v ∉ T0 → v ∉ Ta := by
      intro v hv hnv hvTa
      have h1 := hTa_le v hvTa hnv
      have h2 := p5 v hv hnv c (List.mem_cons_self c cs)
      exact absurd (lt_of_lt_of_le h2 h1) (lt_irrefl c)
    have htail := ihl Va Ta
      (fun c' hc' => hlt c' (List.mem_cons_of_mem c hc'))
      ⟨g1, g2, g3, ?hcov, ?hstk, ?hcons⟩
    case hcov =>
      intro n hn
      rcases g8 n hn with h | ⟨s, hs, hsn, hns⟩ | rfl
      · exact Or.inl h
      · exact Or.inr ⟨s, hs, hsn, hns⟩
      · -- n = c : its discoverer is on the stack
        obtain ⟨p, hpV, hpT, hcp⟩ := p6 n (List.mem_cons_self n cs)
        exact Or.inr ⟨p, g6 p hpV, hstk_out p hpV hpT, hcp⟩
    case hstk =>
      intro v hv hnv c' hc'
      obtain ⟨hv0, hnv0⟩ := g5 v hv hnv
      exact p5 v hv0 hnv0 c' (List.mem_cons_of_mem c hc')
    case hcons =>
      intro c' hc'
      obtain ⟨p, hpV, hpT, hcp⟩ := p6 c' (List.mem_cons_of_mem c hc')
      exact ⟨p, g6 p hpV, hstk_out p hpV hpT, hcp⟩
    obtain ⟨k1, k2, k3, ⟨Δ2, k4⟩, k5, k6, k7, k8⟩ := htail
    rw [hgoal]
    refine ⟨k1, k2, k3, ⟨Δ1 ++ Δ2, by rw [k4, g4, List.append_assoc]⟩, ?_, ?_, ?_, k8⟩
    · intro v hv hnv
      obtain ⟨hva, hnva⟩ := k5 v hv hnv
      exact g5 v hva hnva
    · intro v hv
      exact k6 v (g6 v hv)
    · intro n
      rw [k7 n, g7 n]
      constructor
      · rintro ((h | h) | ⟨c', hc', h⟩)
        · exact Or.inl h
        · exact Or.inr ⟨c, List.mem_cons_self c cs, h⟩
        · exact Or.inr ⟨c', List.mem_cons_of_mem c hc', h⟩
      · rintro (h | ⟨c', hc', h⟩)
        · exact Or.inl (Or.inl h)
        · rcases List.mem_cons.mp hc' with rfl | hc'
          · exact Or.inl (Or.inr h)
          · exact Or.inr ⟨c', hc', h⟩

/-- Main invariant theorem for `build_topo`: a call on `id` extends the
order `T` by exactly the not-yet-visited nodes reachable from `id`, keeps it
duplicate-free and topologically sorted, and leaves every emitted node with
either a later consumer in the order or a consumer still on the stack,
except `id` itself. -/
theorem buildTopoAux_spec {st : Store A} (hwf : WF st) :
    ∀ fuel id V T, id < fuel → TopoPre st id V T →
      TopoPost st id V T (buildTopoAux st fuel id (V, T)).1 (buildTopoAux st fuel id (V, T)).2 := by
  intro fuel
  induction fuel with
  | zero =>
    intro id V T hid
    exact absurd hid (Nat.not_lt_zero id)
  | succ fuel IH =>
    intro id V T hid hpre
    obtain ⟨p1, p2, p3, p4, p5⟩ := hpre
    by_cases hidV : id ∈ V
    · have hres : buildTopoAux st (fuel + 1) id (V, T) = (V, T) := by
        unfold buildTopoAux
        rw [if_pos hidV]
      rw [hres]
      have hidT : id ∈ T := by
        by_contra h
        exact absurd (p5 id hidV h) (lt_irrefl id)
      refine ⟨p1, p2, p3, ⟨[], (List.append_nil T).symm⟩, fun v hv hnv => ⟨hv, hnv⟩,
        fun v hv => hv, ?_, ?_⟩
      · intro n
        constructor
        · exact Or.inl
        · rintro (hn | hr)
          · exact hn
          · exact orderedAfter_reach_mem p3 hidT hr
      · intro n hn
        rcases p4 n hn with h | h
        · exact Or.inl h
        · exact Or.inr (Or.inl h)
    · have hidT : id ∉ T := fun h => hidV (p2 id h)
      have hres : buildTopoAux st (fuel + 1) id (V, T) =
          (((prevOf st id).foldl (fun t c => buildTopoAux st fuel c t) (id :: V, T)).1,
           ((prevOf st id).foldl (fun t c => buildTopoAux st fuel c t) (id :: V, T)).2 ++ [id]) := by
        simp only [buildTopoAux, if_neg hidV]
      rw [hres]
      have hfold := foldTopo_spec hwf fuel IH (prevOf st id) (id :: V) T
        (fun c hc => lt_of_lt_of_le (wf_all hwf id c hc) (Nat.lt_succ_iff.mp hid))
        ⟨p1, fun n hn => List.mem_cons_of_mem id (p2 n hn), p3,
         fun n hn => by
           rcases p4 n hn with h | ⟨s, hs, hsn, hns⟩
           · exact Or.inl h
           · exact Or.inr ⟨s, List.mem_cons_of_mem id hs, hsn, hns⟩,
         fun v hv hnv c hc => by
           rcases List.mem_cons.mp hv with rfl | hv
           · exact wf_all hwf v c hc
           · exact lt_trans (wf_all hwf id c hc) (p5 v hv hnv),
         fun c hc => ⟨id, List.mem_cons_self id V, hidT, hc⟩⟩
      set V1 := ((prevOf st id).foldl (fun t c => buildTopoAux st fuel c t) (id :: V, T)).1 with hV1
      set T1 := ((prevOf st id).foldl (fun t c => buildTopoAux st fuel c t) (id :: V, T)).2 with hT1
      obtain ⟨f1, f2, f3, ⟨Δ, f4⟩, f5, f6, f7, f8⟩ := hfold
      have hidT1 : id ∉ T1 := by
        intro h
        rcases (f7 id).mp h with h | ⟨c, hc, h⟩
        · exact hidT h
        · exact absurd (lt_of_le_of_lt (reach_le hwf h) (wf_all hwf id c hc)) (lt_irrefl id)
      have hprev_in : ∀ m ∈ prevOf st id, m ∈ T1 :=
        fun m hm => (f7 m).mpr (Or.inr ⟨m, hm, Reach.refl m⟩)
      refine ⟨?_, ?_, orderedAfter_append f3 hprev_in hidT1, ?_, ?_, ?_, ?_, ?_⟩
      · exact List.Nodup.append f1 (List.nodup_singleton id)
          (fun a ha hb => hidT1 ((List.mem_singleton.mp hb) ▸ ha))
      · intro n hn
        rcases List.mem_append.mp hn with hn | hn
        · exact f2 n hn
        · rw [List.mem_singleton.mp hn]
          exact f6 id (List.mem_cons_self id V)
      · exact ⟨Δ ++ [id], by rw [f4, List.append_assoc]⟩
      · intro v hv hnv
        have hvT1 : v ∉ T1 := fun h => hnv (List.mem_append.mpr (Or.inl h))
        obtain ⟨hv0, hnv0⟩ := f5 v hv hvT1
        rcases List.mem_cons.mp hv0 with rfl | hv0
        · exact absurd (List.mem_append.mpr (Or.inr (List.mem_singleton.mpr rfl))) hnv
        · exact ⟨hv0, hnv0⟩
      · intro v hv
        exact f6 v (List.mem_cons_of_mem id hv)
      · intro n
        rw [List.mem_append, List.mem_singleton, f7 n, reach_iff st id n]
        constructor
        · rintro ((h | ⟨c, hc, h⟩) | rfl)
          · exact Or.inl h
          · exact Or.inr (Or.inr ⟨c, hc, h⟩)
          · exact Or.inr (Or.inl rfl)
        · rintro (h | (rfl | ⟨c, hc, h⟩))
          · exact Or.inl (Or.inl h)
          · exact Or.inr rfl
          · exact Or.inl (Or.inr ⟨c, hc, h⟩)
      · intro n hn
        rcases List.mem_append.mp hn with hnT1 | hnid
        · rcases f8 n hnT1 with h | ⟨s, hs, hsn, hns⟩
          · exact Or.inl (hasLater_append h)
          · by_cases hsid : s = id
            · subst hsid
              refine Or.inl ⟨s, List.mem_append.mpr (Or.inr (List.mem_singleton.mpr rfl)), hns, ?_⟩
              rw [List.indexOf_append_of_mem hnT1, List.indexOf_append_of_not_mem hidT1]
              have h1 : List.indexOf n T1 < T1.length := List.indexOf_lt_length.mpr hnT1
              have h2 : List.indexOf s [s] = 0 := List.indexOf_cons_self s []
              omega
            · refine Or.inr (Or.inl ⟨s, hs, ?_, hns⟩)
              intro h
              rcases List.mem_append.mp h with h | h
              · exact hsn h
              · exact hsid (List.mem_singleton.mp h)
        · exact Or.inr (Or.inr (List.mem_singleton.mp hnid))

/-- Top-level `build_topo` guarantees, for the empty initial state. -/
theorem buildTopo_spec {st : Store A} (hwf : WF st) (root : NodeId) :
    TopoPost st root [] [] (buildTopo st root).1 (buildTopo st root).2 := by
  unfold buildTopo
  exact buildTopoAux_spec hwf (root + 1) root [] [] (Nat.lt_succ_self root)
    ⟨List.nodup_nil, fun n hn => absurd hn (List.not_mem_nil n),
     fun n hn => absurd hn (List.not_mem_nil n),
     fun n hn => absurd hn (List.not_mem_nil n),
     fun v hv => absurd hv (List.not_mem_nil v)⟩

/-! ## C3: correctness of the topological order -/

/-- C3: for every root node, the linear order built before the reverse walk
covers exactly the nodes reachable from the root via operands, places every
node strictly after all of its operands, and contains a node reachable by
multiple paths exactly once — deduplication is keyed by node identity (the
arena index, modelling `Rc::as_ptr`), not by value. -/
theorem topo_order_correct {st : Store A} (hwf : WF st) (root : NodeId) :
    (∀ n, n ∈ (buildTopo st root).2 ↔ Reach st root n) ∧
    (buildTopo st root).2.Nodup ∧
    (∀ n, Reach st root n → List.count n (buildTopo st root).2 = 1) ∧
    (∀ n ∈ (buildTopo st root).2, ∀ m ∈ prevOf st n,
      m ∈ (buildTopo st root).2 ∧
      List.indexOf m (buildTopo st root).2 < List.indexOf n (buildTopo st root).2) := by
  obtain ⟨c1, _, c3, _, _, _, c7, _⟩ := buildTopo_spec hwf root
  have hiff : ∀ n, n ∈ (buildTopo st root).2 ↔ Reach st root n := by
    intro n
    rw [c7 n]
    constructor
    · rintro (h | h)
      · exact absurd h (List.not_mem_nil n)
      · exact h
    · exact Or.inr
  refine ⟨hiff, c1, ?_, c3⟩
  intro n hr
  exact List.count_eq_one_of_mem c1 ((hiff n).mpr hr)

theorem topo_order_correct_witness :
    WF stC2 ∧ (buildTopo stC2 2).2.Nodup :=
  ⟨by decide, (topo_order_correct (show WF stC2 by decide) 2).2.1⟩

/-! ## C1: local backward rules -/

/-- C1: for every node processed during the backward pass, the contribution
pushed onto each operand's gradient follows the per-operator local rules and
accumulates by addition into the operand's existing gradient, an unset
gradient counting as `0`:  Add gives `da += g` and `db += g`; Sub gives
`da += g` and `db -= g`; Mul gives `da += b.value*g` and `db += a.value*g`;
`Pow(a,k)` gives `da += k*a.value^(k-1)*g`; Tanh gives
`da += (1 - this_node.value^2)*g`; a Leaf pushes nothing. -/
theorem backstep_local_rules (fpow : A → A → A) (st : Store A) (id a b : NodeId) (g k : A)
    (hwf : WF st) (hid : id < st.length) (hg : gradOf st id = some g) :
    (opOf st id = some Oper.leaf → backstep fpow st id = some st) ∧
    (opOf st id = some Oper.add → prevOf st id = [a, b] → a ≠ b →
      ∃ st', backstep fpow st id = some st' ∧
        gradOf st' a = some ((gradOf st a).getD 0 + g) ∧
        gradOf st' b = some ((gradOf st b).getD 0 + g)) ∧
    (opOf st id = some Oper.sub → prevOf st id = [a, b] → a ≠ b →
      ∃ st', backstep fpow st id = some st' ∧
        gradOf st' a = some ((gradOf st a).getD 0 + g) ∧
        gradOf st' b = some ((gradOf st b).getD 0 - g)) ∧
    (opOf st id = some Oper.mul → prevOf st id = [a, b] → a ≠ b →
      ∃ st', backstep fpow st id = some st' ∧
        gradOf st' a = some ((gradOf st a).getD 0 + dataOf st b * g) ∧
        gradOf st' b = some ((gradOf st b).getD 0 + dataOf st a * g)) ∧
    (opOf st id = some (Oper.pow k) → prevOf st id = [a] →
      ∃ st', backstep fpow st id = some st' ∧
        gradOf st' a = some ((gradOf st a).getD 0 + k * fpow (dataOf st a) (k - 1) * g)) ∧
    (opOf st id = some Oper.tanh → prevOf st id = [a] →
      ∃ st', backstep fpow st id = some st' ∧
        gradOf st' a = some ((gradOf st a).getD 0 + (1 - dataOf st id ^ 2) * g)) := by
  obtain ⟨nd, hnd⟩ := get_of_lt st id hid
  obtain ⟨d, gr, pv, o⟩ := nd
  have hgr : gr = some g := by
    have h1 := gradOf_eq_of_get st id _ hnd
    rw [hg] at h1
    exact h1.symm
  subst hgr
  have hopeq := opOf_eq_of_get st id _ hnd
  have hpveq := prevOf_eq_of_get st id _ hnd
  have hdeq := dataOf_eq_of_get st id _ hnd
  refine ⟨?_, ?_, ?_, ?_, ?_, ?_⟩
  · -- Leaf
    intro hop
    rw [hopeq] at hop
    have ho : o = Oper.leaf := Option.some.inj hop
    subst ho
    unfold backstep
    rw [hnd]
  · -- Add
    intro hop hpv hab
    rw [hopeq] at hop
    have ho : o = Oper.add := Option.some.inj hop
    subst ho
    rw [hpveq] at hpv
    subst hpv
    have ha : a < st.length := lt_trans (hwf id hid a (by rw [hpveq]; simp)) hid
    have hb : b < st.length := lt_trans (hwf id hid b (by rw [hpveq]; simp)) hid
    refine ⟨addGrad (addGrad st a g) b g, ?_, ?_, ?_⟩
    · unfold backstep
      rw [hnd]
      rfl
    · rw [gradOf_addGrad_ne _ _ _ _ hab,
        gradOf_addGrad_self _ _ _ ha]
    · rw [gradOf_addGrad_self _ _ _ (by rw [length_addGrad]; exact hb),
        gradOf_addGrad_ne _ _ _ _ (fun h => hab h.symm)]
  · -- Sub
    intro hop hpv hab
    rw [hopeq] at hop
    have ho : o = Oper.sub := Option.some.inj hop
    subst ho
    rw [hpveq] at hpv
    subst hpv
    have ha : a < st.length := lt_trans (hwf id hid a (by rw [hpveq]; simp)) hid
    have hb : b < st.length := lt_trans (hwf id hid b (by rw [hpveq]; simp)) hid
    refine ⟨addGrad (addGrad st a g) b (-g), ?_, ?_, ?_⟩
    · unfold backstep
      rw [hnd]
      rfl
    · rw [gradOf_addGrad_ne _ _ _ _ hab,
        gradOf_addGrad_self _ _ _ ha]
    · rw [gradOf_addGrad_self _ _ _ (by rw [length_addGrad]; exact hb),
        gradOf_addGrad_ne _ _ _ _ (fun h => hab h.symm)]
      rw [sub_eq_add_neg]
  · -- Mul
    intro hop hpv hab
    rw [hopeq] at hop
    have ho : o = Oper.mul := Option.some.inj hop
    subst ho
    rw [hpveq] at hpv
    subst hpv
    have ha : a < st.length := lt_trans (hwf id hid a (by rw [hpveq]; simp)) hid
    have hb : b < st.length := lt_trans (hwf id hid b (by rw [hpveq]; simp)) hid
    refine ⟨addGrad (addGrad st a (dataOf st b * g)) b (dataOf st a * g), ?_, ?_, ?_⟩
    · unfold backstep
      rw [hnd]
      rfl
    · rw [gradOf_addGrad_ne _ _ _ _ hab,
        gradOf_addGrad_self _ _ _ ha]
    · rw [gradOf_addGrad_self _ _ _ (by rw [length_addGrad]; exact hb),
        gradOf_addGrad_ne _ _ _ _ (fun h => hab h.symm)]
  · -- Pow
    intro hop hpv
    rw [hopeq] at hop
    have ho : o = Oper.pow k := Option.some.inj hop
    subst ho
    rw [hpveq] at hpv
    subst hpv
    have ha : a < st.length := lt_trans (hwf id hid a (by rw [hpveq]; simp)) hid
    refine ⟨addGrad st a (k * fpow (dataOf st a) (k - 1) * g), ?_, ?_⟩
    · unfold backstep
      rw [hnd]
      rfl
    · rw [gradOf_addGrad_self _ _ _ ha]
  · -- Tanh
    intro hop hpv
    rw [hopeq] at hop
    have ho : o = Oper.tanh := Option.some.inj hop
    subst ho
    rw [hpveq] at hpv
    subst hpv
    have ha : a < st.length := lt_trans (hwf id hid a (by rw [hpveq]; simp)) hid
    refine ⟨addGrad st a ((1 - d ^ 2) * g), ?_, ?_⟩
    · unfold backstep
      rw [hnd]
      rfl
    · rw [gradOf_addGrad_self _ _ _ ha, hdeq]

theorem backstep_local_rules_witness :
    WF stW1 ∧ ∃ st', backstep (fun _ _ => (0 : Int)) stW1 2 = some st' ∧
      gradOf st' 0 = some ((gradOf stW1 0).getD 0 + dataOf stW1 1 * 1) ∧
      gradOf st' 1 = some ((gradOf stW1 1).getD 0 + dataOf stW1 0 * 1) :=
  ⟨by decide,
    (backstep_local_rules (fun _ _ => (0 : Int)) stW1 2 0 1 1 0
      (by decide) (by decide) (by decide)).2.2.2.1 (by decide) (by decide) (by decide)⟩

/-! ## C2: gradient accumulation under sharing -/

/-- C2: for `c = (a*a) + a` built from a single leaf `a` with value `3`,
running the backward pass from `c` leaves `a`'s gradient equal to
`2*a.value + 1 = 7`: the contributions from both paths through the shared
node `a` are summed, not overwritten, and not dropped.  (Stated for an
arbitrary `powf` model, which the graph never uses.) -/
theorem sharing_accumulates (fpow : Int → Int → Int) :
    (backprop fpow stC2 2).map (fun s => gradOf s 0) =
      some (some (2 * dataOf stC2 0 + 1)) := by
  rfl

/-! ## Backward-pass success lemmas -/

theorem setGrad_of_ge (st : Store A) (id : NodeId) (g : A) (h : st.length ≤ id) :
    setGrad st id g = st := by
  unfold setGrad
  rw [List.get?_eq_getElem?, List.getElem?_eq_none (by omega)]

theorem gradOf_addGrad_isSome_self (st : Store A) (id : NodeId) (c : A) (h : id < st.length) :
    (gradOf (addGrad st id c) id).isSome := by
  rw [gradOf_addGrad_self st id c h]
  rfl

theorem gradOf_addGrad_isSome_mono (st : Store A) (id : NodeId) (c : A) (j : NodeId)
    (h : (gradOf st j).isSome) : (gradOf (addGrad st id c) j).isSome := by
  by_cases hj : j = id
  · subst hj
    by_cases hl : j < st.length
    · exact gradOf_addGrad_isSome_self st j c hl
    · unfold addGrad
      rw [setGrad_of_ge st j _ (le_of_not_lt hl)]
      exact h
  · rw [gradOf_addGrad_ne st id c j hj]
    exact h

theorem foldl_addGrad_facts (g : A) :
    ∀ (l : List NodeId) (st : Store A),
      (l.foldl (fun s c => addGrad s c g) st).length = st.length ∧
      (∀ j, prevOf (l.foldl (fun s c => addGrad s c g) st) j = prevOf st j) ∧
      (∀ j, opOf (l.foldl (fun s c => addGrad s c g) st) j = opOf st j) ∧
      (∀ j, dataOf (l.foldl (fun s c => addGrad s c g) st) j = dataOf st j) ∧
      (∀ j, (gradOf st j).isSome → (gradOf (l.foldl (fun s c => addGrad s c g) st) j).isSome) ∧
      (∀ c ∈ l, c < st.length → (gradOf (l.foldl (fun s c => addGrad s c g) st) c).isSome) := by
  intro l
  induction l with
  | nil =>
    intro st
    exact ⟨rfl, fun j => rfl, fun j => rfl, fun j => rfl, fun j h => h,
      fun c hc => absurd hc (List.not_mem_nil c)⟩
  | cons c0 l ih =>
    intro st
    obtain ⟨i1, i2, i3, i4, i5, i6⟩ := ih (addGrad st c0 g)
    rw [List.foldl_cons]
    refine ⟨by rw [i1, length_addGrad], fun j => by rw [i2 j, prevOf_addGrad],
      fun j => by rw [i3 j, opOf_addGrad], fun j => by rw [i4 j, dataOf_addGrad],
      fun j h => i5 j (gradOf_addGrad_isSome_mono st c0 g j h), ?_⟩
    intro c hc hcl
    rcases List.mem_cons.mp hc with rfl | hc
    · exact i5 c (gradOf_addGrad_isSome_self st c g hcl)
    · exact i6 c hc (by rw [length_addGrad]; exact hcl)

/-- On a well-formed arena with the operand-count discipline, a `backstep`
on a node whose gradient is set always succeeds; it only rewrites gradients
(length, values, operands and operators are untouched), never unsets a
gradient, and leaves every operand of the processed node with a set
gradient. -/
theorem backstep_total (fpow : A → A → A) (st : Store A) (id : NodeId)
    (hwf : WF st) (har : ArityOk st) (hid : id < st.length)
    (hg : (gradOf st id).isSome) :
    ∃ st2, backstep fpow st id = some st2 ∧
      st2.length = st.length ∧
      (∀ j, prevOf st2 j = prevOf st j) ∧
      (∀ j, opOf st2 j = opOf st j) ∧
      (∀ j, dataOf st2 j = dataOf st j) ∧
      (∀ j, (gradOf st j).isSome → (gradOf st2 j).isSome) ∧
      (∀ c ∈ prevOf st id, (gradOf st2 c).isSome) := by
  obtain ⟨nd, hnd⟩ := get_of_lt st id hid
  obtain ⟨d, gr, pv, o⟩ := nd
  have hprev : prevOf st id = pv := prevOf_eq_of_get st id _ hnd
  have harid := har id hid
  rw [opOf_eq_of_get st id _ hnd, hprev] at harid
  have hbound : ∀ c ∈ pv, c < st.length := by
    intro c hc
    rw [← hprev] at hc
    exact lt_trans (wf_all hwf id c hc) hid
  have hgr : gr.isSome := by
    rw [gradOf_eq_of_get st id _ hnd] at hg
    exact hg
  cases gr with
  | none => exact absurd hgr (by simp)
  | some g =>
    rw [hprev]
    cases o with
    | leaf =>
      refine ⟨st, by unfold backstep; rw [hnd], rfl, fun j => rfl, fun j => rfl,
        fun j => rfl, fun j h => h, ?_⟩
      have hpv : pv = [] := by
        simp only [opArityOkB, List.isEmpty_iff] at harid
        exact harid
      rw [hpv]
      intro c hc
      exact absurd hc (List.not_mem_nil c)
    | add =>
      obtain ⟨f1, f2, f3, f4, f5, f6⟩ := foldl_addGrad_facts g pv st
      exact ⟨pv.foldl (fun s c => addGrad s c g) st, by unfold backstep; rw [hnd],
        f1, f2, f3, f4, f5, fun c hc => f6 c hc (hbound c hc)⟩
    | sub =>
      have hlen2 : pv.length = 2 := by
        simp only [opArityOkB, beq_iff_eq] at harid
        exact harid
      match pv, hlen2 with
      | [a, b], _ =>
        have ha : a < st.length := hbound a (by simp)
        have hb : b < (addGrad st a g).length := by
          rw [length_addGrad]
          exact hbound b (by simp)
        refine ⟨addGrad (addGrad st a g) b (-g), by unfold backstep; rw [hnd]; rfl,
          by rw [length_addGrad, length_addGrad],
          fun j => by rw [prevOf_addGrad, prevOf_addGrad],
          fun j => by rw [opOf_addGrad, opOf_addGrad],
          fun j => by rw [dataOf_addGrad, dataOf_addGrad],
          fun j h => gradOf_addGrad_isSome_mono _ b _ j (gradOf_addGrad_isSome_mono _ a _ j h), ?_⟩
        intro c hc
        rcases List.mem_cons.mp hc with rfl | hc
        · exact gradOf_addGrad_isSome_mono _ b _ c (gradOf_addGrad_isSome_self st c g ha)
        · rw [List.mem_singleton.mp hc]
          exact gradOf_addGrad_isSome_self _ b _ hb
    | mul =>
      have hlen2 : pv.length = 2 := by
        simp only [opArityOkB, beq_iff_eq] at harid
        exact harid
      match pv, hlen2 with
      | [a, b], _ =>
        have ha : a < st.length := hbound a (by simp)
        have hb : b < (addGrad st a (dataOf st b * g)).length := by
          rw [length_addGrad]
          exact hbound b (by simp)
        refine ⟨addGrad (addGrad st a (dataOf st b * g)) b (dataOf st a * g),
          by unfold backstep; rw [hnd]; rfl,
          by rw [length_addGrad, length_addGrad],
          fun j => by rw [prevOf_addGrad, prevOf_addGrad],
          fun j => by rw [opOf_addGrad, opOf_addGrad],
          fun j => by rw [dataOf_addGrad, dataOf_addGrad],
          fun j h => gradOf_addGrad_isSome_mono _ b _ j (gradOf_addGrad_isSome_mono _ a _ j h), ?_⟩
        intro c hc
        rcases List.mem_cons.mp hc with rfl | hc
        · exact gradOf_addGrad_isSome_mono _ b _ c (gradOf_addGrad_isSome_self st c _ ha)
        · rw [List.mem_singleton.mp hc]
          exact gradOf_addGrad_isSome_self _ b _ hb
    | pow e =>
      have hlen1 : pv.length = 1 := by
        simp only [opArityOkB, beq_iff_eq] at harid
        exact harid
      match pv, hlen1 with
      | [a], _ =>
        have ha : a < st.length := hbound a (by simp)
        refine ⟨addGrad st a (e * fpow (dataOf st a) (e - 1) * g),
          by unfold backstep; rw [hnd]; rfl,
          length_addGrad _ _ _, fun j => prevOf_addGrad _ _ _ j,
          fun j => opOf_addGrad _ _ _ j, fun j => dataOf_addGrad _ _ _ j,
          fun j h => gradOf_addGrad_isSome_mono _ a _ j h, ?_⟩
        intro c hc
        rw [List.mem_singleton.mp hc]
        exact gradOf_addGrad_isSome_self st a _ ha
    | tanh =>
      have hlen1 : pv.length = 1 := by
        simp only [opArityOkB, beq_iff_eq] at harid
        exact harid
      match pv, hlen1 with
      | [a], _ =>
        have ha : a < st.length := hbound a (by simp)
        refine ⟨addGrad st a ((1 - d ^ 2) * g),
          by unfold backstep; rw [hnd]; rfl,
          length_addGrad _ _ _, fun j => prevOf_addGrad _ _ _ j,
          fun j => opOf_addGrad _ _ _ j, fun j => dataOf_addGrad _ _ _ j,
          fun j h => gradOf_addGrad_isSome_mono _ a _ j h, ?_⟩
        intro c hc
        rw [List.mem_singleton.mp hc]
        exact gradOf_addGrad_isSome_self st a _ ha

theorem arityOk_transfer {st st2 : Store A} (har : ArityOk st)
    (hlen : st2.length = st.length)
    (hprev : ∀ j, prevOf st2 j = prevOf st j)
    (hop : ∀ j, opOf st2 j = opOf st j) : ArityOk st2 := by
  intro i hi
  rw [hprev i, hop i]
  exact har i (by omega)

theorem seedRoot_facts (st : Store A) (root : NodeId) (h : root < st.length) :
    (seedRoot st root).length = st.length ∧
    (∀ j, prevOf (seedRoot st root) j = prevOf st j) ∧
    (∀ j, opOf (seedRoot st root) j = opOf st j) ∧
    (∀ j, dataOf (seedRoot st root) j = dataOf st j) ∧
    (∀ j, (gradOf st j).isSome → (gradOf (seedRoot st root) j).isSome) ∧
    (gradOf (seedRoot st root) root).isSome := by
  cases hg : gradOf st root with
  | none =>
    have hseed : seedRoot st root = setGrad st root 1 := by
      unfold seedRoot
      rw [hg]
    rw [hseed]
    refine ⟨length_setGrad st root 1, fun j => prevOf_setGrad st root 1 j,
      fun j => opOf_setGrad st root 1 j, fun j => dataOf_setGrad st root 1 j, ?_, ?_⟩
    · intro j hj
      by_cases hjr : j = root
      · subst hjr
        rw [gradOf_setGrad_self st j 1 h]
        rfl
      · rw [gradOf_setGrad_ne st root 1 j hjr]
        exact hj
    · rw [gradOf_setGrad_self st root 1 h]
      rfl
  | some g =>
    have hseed : seedRoot st root = st := by
      unfold seedRoot
      rw [hg]
    rw [hseed]
    exact ⟨rfl, fun j => rfl, fun j => rfl, fun j => rfl, fun j hj => hj, by rw [hg]; rfl⟩

/-- Invariant of the reverse walk: processing the remaining list `R2` of the
order `R = P ++ R2` succeeds when every already-processed node has pushed a
set gradient onto its operands, each remaining node being either the root
(whose gradient is seeded) or an operand of an earlier-processed node. -/
theorem runBack_inv (fpow : A → A → A) (st0 : Store A) (root : NodeId) (R : List NodeId)
    (hwf0 : WF st0) (har0 : ArityOk st0)
    (HR : ∀ n ∈ R, n < st0.length)
    (Hcons : ∀ p (hp : p < R.length),
      (∃ q, ∃ hq : q < R.length, q < p ∧ R.get ⟨p, hp⟩ ∈ prevOf st0 (R.get ⟨q, hq⟩)) ∨
      R.get ⟨p, hp⟩ = root) :
    ∀ (R2 P : List NodeId) (st : Store A),
      R = P ++ R2 →
      st.length = st0.length →
      (∀ j, prevOf st j = prevOf st0 j) →
      (∀ j, opOf st j = opOf st0 j) →
      (gradOf st root).isSome →
      (∀ q ∈ P, ∀ c ∈ prevOf st0 q, (gradOf st c).isSome) →
      ∃ stF, runBack fpow st R2 = some stF ∧
        (∀ j, (gradOf st j).isSome → (gradOf stF j).isSome) ∧
        (∀ n ∈ R2, (gradOf stF n).isSome) := by
  intro R2
  induction R2 with
  | nil =>
    intro P st hR hlen hprev hop hroot hproc
    exact ⟨st, rfl, fun j h => h, fun n hn => absurd hn (List.not_mem_nil n)⟩
  | cons n rest ih =>
    intro P st hR hlen hprev hop hroot hproc
    subst hR
    have hplen : P.length < (P ++ n :: rest).length := by
      rw [List.length_append]
      simp
    have hgetn : (P ++ n :: rest).get ⟨P.length, hplen⟩ = n := by
      rw [List.get_eq_getElem, List.getElem_append_right (le_refl P.length)]
      simp
    have hnlen : n < st0.length := HR n (by simp)
    have hgn : (gradOf st n).isSome := by
      rcases Hcons P.length hplen with ⟨q, hq, hqp, hmem⟩ | hroot_eq
      · have hq' : q < P.length := hqp
        have hgetq : (P ++ n :: rest).get ⟨q, hq⟩ = P.get ⟨q, hq'⟩ := by
          rw [List.get_eq_getElem, List.get_eq_getElem, List.getElem_append_left hq']
        rw [hgetn, hgetq] at hmem
        exact hproc _ (List.get_mem P q hq') n hmem
      · rw [hgetn] at hroot_eq
        subst hroot_eq
        exact hroot
    have hwfst : WF st := by
      intro i hi c hc
      rw [hprev i] at hc
      exact wf_all hwf0 i c hc
    have harst : ArityOk st := arityOk_transfer har0 hlen hprev hop
    obtain ⟨st2, hbs, hlen2, hprev2, hop2, _, hmono2, hsets2⟩ :=
      backstep_total fpow st n hwfst harst (by rw [hlen]; exact hnlen) hgn
    have hrun : runBack fpow st (n :: rest) = runBack fpow st2 rest := by
      show (match backstep fpow st n with
        | none => none
        | some st1 => runBack fpow st1 rest) = runBack fpow st2 rest
      rw [hbs]
    have hproc2 : ∀ q ∈ P ++ [n], ∀ c ∈ prevOf st0 q, (gradOf st2 c).isSome := by
      intro q hq c hc
      rcases List.mem_append.mp hq with hq | hq
      · exact hmono2 c (hproc q hq c hc)
      · rw [List.mem_singleton.mp hq] at hc
        rw [← hprev n] at hc
        exact hsets2 c hc
    obtain ⟨stF, hF, hmonoF, hallF⟩ := ih (P ++ [n]) st2
      (by rw [List.append_assoc]; rfl)
      (hlen2.trans hlen)
      (fun j => (hprev2 j).trans (hprev j))
      (fun j => (hop2 j).trans (hop j))
      (hmono2 root hroot)
      hproc2
    refine ⟨stF, by rw [hrun]; exact hF, fun j h => hmonoF j (hmono2 j h), ?_⟩
    intro m hm
    rcases List.mem_cons.mp hm with rfl | hm
    · exact hmonoF m (hmono2 m hgn)
    · exact hallF m hm

/-! ## C10: the backward pass sets every reachable gradient and never fails -/

/-- C10: after `backprop(root)` returns, every node reachable from `root`
via operands — the root itself, every interior node, and every leaf — has a
set (`some`) gradient; in particular during the reverse walk each processed
node's own gradient is already set when it is read with `unwrap`, so the
read never fails and the whole pass returns successfully. -/
theorem backprop_total (fpow : A → A → A) {st : Store A}
    (hwf : WF st) (har : ArityOk st) (root : NodeId) (hroot : root < st.length) :
    ∃ st', backprop fpow st root = some st' ∧
      ∀ n, Reach st root n → (gradOf st' n).isSome := by
  obtain ⟨c1, _, c3, _, c5, _, c7, c8⟩ := buildTopo_spec hwf root
  set tp := (buildTopo st root).2 with htp
  have c7' : ∀ n, n ∈ tp ↔ Reach st root n := by
    intro n
    rw [c7 n]
    constructor
    · rintro (h | h)
      · exact absurd h (List.not_mem_nil n)
      · exact h
    · exact Or.inr
  have c8' : ∀ n ∈ tp, HasLater st tp n ∨ n = root := by
    intro n hn
    rcases c8 n hn with h | ⟨s, hs, hsn, _⟩ | h
    · exact Or.inl h
    · exact absurd (c5 s hs hsn).1 (List.not_mem_nil s)
    · exact Or.inr h
  have hlenR : tp.reverse.length = tp.length := List.length_reverse tp
  have HR : ∀ n ∈ tp.reverse, n < st.length := by
    intro n hn
    have := (c7' n).mp (List.mem_reverse.mp hn)
    exact lt_of_le_of_lt (reach_le hwf this) hroot
  have Hcons : ∀ p (hp : p < tp.reverse.length),
      (∃ q, ∃ hq : q < tp.reverse.length, q < p ∧
        tp.reverse.get ⟨p, hp⟩ ∈ prevOf st (tp.reverse.get ⟨q, hq⟩)) ∨
      tp.reverse.get ⟨p, hp⟩ = root := by
    intro p hp
    have hpL : p < tp.length := by omega
    have hnmem : tp.reverse.get ⟨p, hp⟩ ∈ tp := List.mem_reverse.mp (List.get_mem _ p hp)
    have hL1 : tp.length - 1 - p < tp.length := by omega
    have hgetrev : tp.reverse.get ⟨p, hp⟩ = tp.get ⟨tp.length - 1 - p, hL1⟩ :=
      List.get_reverse' tp ⟨p, hp⟩ hL1
    rcases c8' _ hnmem with ⟨w, hw, hpw, hidx⟩ | h
    · left
      have hidlt : List.indexOf (tp.reverse.get ⟨p, hp⟩) tp < tp.length :=
        List.indexOf_lt_length.mpr hnmem
      have h1 : tp.get ⟨List.indexOf (tp.reverse.get ⟨p, hp⟩) tp, hidlt⟩ =
          tp.reverse.get ⟨p, hp⟩ := List.indexOf_get hidlt
      have h2 := h1.trans hgetrev
      simp only [List.get_eq_getElem] at h2
      have hidxn : List.indexOf (tp.reverse.get ⟨p, hp⟩) tp = tp.length - 1 - p :=
        (List.Nodup.getElem_inj_iff c1).mp h2
      have hidxw : List.indexOf w tp < tp.length := List.indexOf_lt_length.mpr hw
      have hqlt : tp.length - 1 - List.indexOf w tp < tp.reverse.length := by omega
      refine ⟨tp.length - 1 - List.indexOf w tp, hqlt, by omega, ?_⟩
      have hgetq : tp.reverse.get ⟨tp.length - 1 - List.indexOf w tp, hqlt⟩ = w :=
        (List.get_reverse tp (List.indexOf w tp) hqlt hidxw).trans (List.indexOf_get hidxw)
      rw [hgetq]
      exact hpw
    · right
      exact h
  obtain ⟨s1, s2, s3, s4, s5, s6⟩ := seedRoot_facts st root hroot
  obtain ⟨stF, hF, hmonoF, hallF⟩ := runBack_inv fpow st root
    tp.reverse hwf har HR Hcons
    tp.reverse [] (seedRoot st root)
    (List.nil_append _).symm s1 s2 s3 s6
    (fun q hq => absurd hq (List.not_mem_nil q))
  refine ⟨stF, hF, ?_⟩
  intro n hr
  exact hallF n (List.mem_reverse.mpr ((c7' n).mpr hr))


theorem backprop_total_witness :
    WF stC2 ∧ ArityOk stC2 ∧
      ∃ st', backprop (fun _ _ => (0 : Int)) stC2 2 = some st' ∧
        ∀ n, Reach stC2 2 n → (gradOf st' n).isSome :=
  ⟨by decide, by decide,
    backprop_total (fun _ _ => (0 : Int)) (by decide) (by decide) 2 (by decide)⟩

/-! ## Arena-extension lemmas -/

theorem get_append_lt (st Δ : Store A) (i : NodeId) (h : i < st.length) :
    (st ++ Δ).get? i = st.get? i := by
  rw [List.get?_eq_getElem?, List.get?_eq_getElem?, List.getElem?_append_left h]

theorem dataOf_append_lt (st Δ : Store A) (i : NodeId) (h : i < st.length) :
    dataOf (st ++ Δ) i = dataOf st i := by
  unfold dataOf
  rw [get_append_lt st Δ i h]

theorem dataOf_append_self (st : Store A) (nd : ValueData A) (Δ : Store A) :
    dataOf (st ++ nd :: Δ) st.length = nd.data := by
  unfold dataOf
  rw [List.get?_eq_getElem?, List.getElem?_append_right (le_refl _)]
  simp

/-! ## C7: division refines to Mul composed with Pow(-1) -/

/-- C7: division is not a primitive operator: `div(a,b)` builds exactly a
`Pow(-1)` node over `b` followed by a `Mul` node over `a` and that node —
the same graph, forward value and (hence, by the Mul/Pow rules of the
backward pass) gradient behaviour as the composition `a * b^(-1)`.  The
divisor's value enters only through an unconditional `powf(·, -1)`
application: there is no guard against a zero divisor. -/
theorem div_refines_mul_pow (fpow : A → A → A) (st : Store A) (a b : NodeId)
    (ha : a < st.length) (hb : b < st.length) :
    vdiv fpow st a b =
      (st ++ [⟨fpow (dataOf st b) (-1), none, [b], Oper.pow (-1)⟩,
              ⟨dataOf st a * fpow (dataOf st b) (-1), none, [a, st.length], Oper.mul⟩],
       st.length + 1) := by
  unfold vdiv vpow vmul push
  dsimp only
  rw [dataOf_append_lt st _ a ha]
  rw [show dataOf (st ++ [(⟨fpow (dataOf st b) (-1), none, [b], Oper.pow (-1)⟩ : ValueData A)])
      st.length = fpow (dataOf st b) (-1) from dataOf_append_self st _ []]
  simp

theorem div_refines_mul_pow_witness :
    (3 < stN.length ∧ 0 < stN.length) ∧
    vdiv (fun x y => x * y) stN 3 0 =
      (stN ++ [⟨(fun x y => x * y) (dataOf stN 0) (-1), none, [0], Oper.pow (-1)⟩,
               ⟨dataOf stN 3 * (fun x y => x * y) (dataOf stN 0) (-1), none,
                [3, stN.length], Oper.mul⟩],
       stN.length + 1) :=
  ⟨⟨by decide, by decide⟩,
    div_refines_mul_pow (fun x y => x * y) stN 3 0 (by decide) (by decide)⟩

/-! ## C4: gradient lifetime across passes (the code never resets) -/

/-- C4 (divergence demonstration): build `c1 = a + a` over a fresh leaf
`a = 3` and backpropagate: `a.grad = 2` — the single pass's contribution.
Then build the same fresh graph `c2 = a + a` again over the *same*
persisting leaf, as the training loop does every iteration, and
backpropagate from `c2`: the leaf's gradient becomes `4 = 2 (stale) + 2
(fresh)`, not the fresh contribution `2` alone — nothing ever resets a
persisting Leaf's gradient, so the backward pass accumulates into the
previous pass's value via `unwrap_or(0.0) + …`. -/
theorem grad_accumulates_across_passes (fpow : Int → Int → Int) :
    ∃ st1, backprop fpow stP1 1 = some st1 ∧
      gradOf st1 0 = some 2 ∧
      (backprop fpow (vadd st1 0 0).1 2).map (fun s => gradOf s 0) = some (some 4) := by
  exact ⟨_, rfl, rfl, rfl⟩

/-! ## C5: neuron shape mismatch is silently truncated by `zip` -/

theorem zip_eq_zip_take : ∀ (l1 l2 : List NodeId),
    l1.zip l2 = (l1.take l2.length).zip (l2.take l1.length) := by
  intro l1
  induction l1 with
  | nil =>
    intro l2
    simp
  | cons x t ih =>
    intro l2
    cases l2 with
    | nil => rfl
    | cons y t2 =>
      show (x, y) :: t.zip t2 = (x, y) :: (t.take t2.length).zip (t2.take t.length)
      rw [ih t2]

/-- C5 counterexample: calling a two-weight neuron with a single input is
not signalled: the call completes and produces a graph *identical* to that
of a one-weight neuron — the second weight is silently dropped by `zip`. -/
theorem neuron_mismatch_silently_truncates :
    ([3] : List NodeId).length ≠ nMis.weights.length ∧
    neuronCall (fun v => v) stN nMis [3] =
      neuronCall (fun v => v) stN ⟨nMis.bias, [0]⟩ [3] :=
  ⟨by decide, rfl⟩

/-- C5 (amended): `Neuron::call` performs no length check; `zip` truncates
to the shorter of the input and weight sequences, so the call behaves
exactly as if both sequences had been truncated to the common length, and
no error is signalled. -/
theorem neuronCall_truncates (ftanh : A → A) (st : Store A) (n : Neuron) (ins : List NodeId) :
    neuronCall ftanh st n ins =
      neuronCall ftanh st ⟨n.bias, n.weights.take ins.length⟩ (ins.take n.weights.length) := by
  unfold neuronCall
  rw [zip_eq_zip_take ins n.weights]

/-! ## C6: parameter update -/

/-- C6: `update(node, learning_rate)` mutates the node's value in place to
`value − learning_rate * gradient` when the gradient is set — every other
node is untouched, and the node's own gradient, operands and operator are
kept — and fails (the `unwrap` of an unset gradient) when the gradient is
unset. -/
theorem update_rule (st : Store A) (id : NodeId) (lr g : A) (hid : id < st.length) :
    (gradOf st id = some g →
      ∃ st', vupdate st id lr = some st' ∧
        dataOf st' id = dataOf st id - lr * g ∧
        (∀ j, j ≠ id → st'.get? j = st.get? j) ∧
        gradOf st' id = gradOf st id ∧
        prevOf st' id = prevOf st id ∧
        opOf st' id = opOf st id) ∧
    (gradOf st id = none → vupdate st id lr = none) := by
  obtain ⟨nd, hnd⟩ := get_of_lt st id hid
  obtain ⟨d, gr, pv, o⟩ := nd
  have hdata := dataOf_eq_of_get st id _ hnd
  have hgrad := gradOf_eq_of_get st id _ hnd
  have hprev := prevOf_eq_of_get st id _ hnd
  have hop := opOf_eq_of_get st id _ hnd
  constructor
  · intro hg
    have hgr : gr = some g := by
      rw [hg] at hgrad
      exact hgrad.symm
    subst hgr
    have hself : (st.set id ⟨d + -lr * g, some g, pv, o⟩).get? id =
        some ⟨d + -lr * g, some g, pv, o⟩ := by
      rw [List.get?_eq_getElem?, List.getElem?_set, if_pos rfl, if_pos hid]
    refine ⟨st.set id ⟨d + -lr * g, some g, pv, o⟩, by unfold vupdate; rw [hnd], ?_, ?_, ?_, ?_, ?_⟩
    · rw [dataOf_eq_of_get _ id _ hself, hdata, sub_eq_add_neg, neg_mul]
    · intro j hj
      rw [List.get?_eq_getElem?, List.get?_eq_getElem?, List.getElem?_set,
        if_neg (fun he => hj he.symm)]
    · rw [gradOf_eq_of_get _ id _ hself, hgrad]
    · rw [prevOf_eq_of_get _ id _ hself, hprev]
    · rw [opOf_eq_of_get _ id _ hself, hop]
  · intro hg
    have hgr : gr = none := by
      rw [hg] at hgrad
      exact hgrad.symm
    subst hgr
    unfold vupdate
    rw [hnd]

theorem update_rule_witness :
    gradOf stW2 0 = some 4 ∧
    ∃ st', vupdate stW2 0 3 = some st' ∧
      dataOf st' 0 = dataOf stW2 0 - 3 * 4 ∧
      (∀ j, j ≠ 0 → st'.get? j = stW2.get? j) ∧
      gradOf st' 0 = gradOf stW2 0 ∧
      prevOf st' 0 = prevOf stW2 0 ∧
      opOf st' 0 = opOf stW2 0 :=
  ⟨by decide, (update_rule stW2 0 3 4 (by decide)).1 (by decide)⟩

/-! ## C8: forward construction never mutates existing nodes -/

theorem extends_refl (st : Store A) : Extends st st :=
  ⟨[], (List.append_nil st).symm, fun nd h => absurd h (List.not_mem_nil nd)⟩

theorem extends_trans {s1 s2 s3 : Store A} (h12 : Extends s1 s2) (h23 : Extends s2 s3) :
    Extends s1 s3 := by
  obtain ⟨d1, e1, g1⟩ := h12
  obtain ⟨d2, e2, g2⟩ := h23
  refine ⟨d1 ++ d2, ?_, ?_⟩
  · rw [e2, e1, List.append_assoc]
  · intro nd hnd
    rcases List.mem_append.mp hnd with h | h
    · exact g1 nd h
    · exact g2 nd h

theorem extends_push (st : Store A) (d : A) (pv : List NodeId) (o : Oper A) :
    Extends st (push st ⟨d, none, pv, o⟩).1 :=
  ⟨[⟨d, none, pv, o⟩], rfl, by
    intro nd h
    rw [List.mem_singleton.mp h]⟩

theorem extends_get {st st' : Store A} (h : Extends st st') (i : NodeId)
    (hi : i < st.length) : st'.get? i = st.get? i := by
  obtain ⟨Δ, e, _⟩ := h
  rw [e, get_append_lt st Δ i hi]

theorem extends_dataOf {st st' : Store A} (h : Extends st st') (i : NodeId)
    (hi : i < st.length) : dataOf st' i = dataOf st i := by
  unfold dataOf
  rw [extends_get h i hi]

theorem extends_gradOf {st st' : Store A} (h : Extends st st') (i : NodeId)
    (hi : i < st.length) : gradOf st' i = gradOf st i := by
  unfold gradOf
  rw [extends_get h i hi]

theorem extends_length {st st' : Store A} (h : Extends st st') :
    st.length ≤ st'.length := by
  obtain ⟨Δ, e, _⟩ := h
  rw [e, List.length_append]
  omega

theorem neuronFold_extends (st : Store A) :
    ∀ (L : List (NodeId × NodeId)) (st1 : Store A) (s : NodeId), Extends st st1 →
      Extends st ((L.foldl
        (fun acc iw =>
          let p := vmul acc.1 iw.2 iw.1
          vadd p.1 acc.2 p.2) (st1, s)).1) := by
  intro L
  induction L with
  | nil =>
    intro st1 s h
    exact h
  | cons iw L ih =>
    intro st1 s h
    rw [List.foldl_cons]
    have hp : Extends st1 (vmul st1 iw.2 iw.1).1 := extends_push st1 _ _ _
    have ha : Extends (vmul st1 iw.2 iw.1).1
        (vadd (vmul st1 iw.2 iw.1).1 s (vmul st1 iw.2 iw.1).2).1 := extends_push _ _ _ _
    exact ih (vadd (vmul st1 iw.2 iw.1).1 s (vmul st1 iw.2 iw.1).2).1
      (vadd (vmul st1 iw.2 iw.1).1 s (vmul st1 iw.2 iw.1).2).2
      (extends_trans h (extends_trans hp ha))

theorem neuronCall_extends (ftanh : A → A) (st : Store A) (n : Neuron) (ins : List NodeId) :
    Extends st (neuronCall ftanh st n ins).1 := by
  unfold neuronCall
  exact extends_trans (neuronFold_extends st _ st n.bias (extends_refl st))
    (extends_push _ _ _ _)

theorem layerFold_extends (ftanh : A → A) (ins : List NodeId) :
    ∀ (ns : List Neuron) (st : Store A) (outs : List NodeId),
      Extends st ((ns.foldl
        (fun acc n =>
          let r := neuronCall ftanh acc.1 n ins
          (r.1, acc.2 ++ [r.2])) (st, outs)).1) := by
  intro ns
  induction ns with
  | nil =>
    intro st outs
    exact extends_refl st
  | cons n ns ih =>
    intro st outs
    rw [List.foldl_cons]
    exact extends_trans (neuronCall_extends ftanh st n ins)
      (ih (neuronCall ftanh st n ins).1 (outs ++ [(neuronCall ftanh st n ins).2]))

theorem layerForward_extends (ftanh : A → A) (st : Store A) (l : Layer) (ins : List NodeId) :
    Extends st (layerForward ftanh st l ins).1 :=
  layerFold_extends ftanh ins l.neurons st []

theorem mlpFold_extends (ftanh : A → A) :
    ∀ (ls : List Layer) (st : Store A) (ins : List NodeId),
      Extends st ((ls.foldl (fun acc l => layerForward ftanh acc.1 l acc.2) (st, ins)).1) := by
  intro ls
  induction ls with
  | nil =>
    intro st ins
    exact extends_refl st
  | cons l ls ih =>
    intro st ins
    rw [List.foldl_cons]
    exact extends_trans (layerForward_extends ftanh st l ins)
      (ih (layerForward ftanh st l ins).1 (layerForward ftanh st l ins).2)

/-- C8: forward graph construction never mutates existing nodes: every
arithmetic/activation operation (and every network-composition call built
from them) only appends brand-new nodes, each created with gradient unset,
and leaves every already-existing node — value, gradient, operands,
operator — byte-for-byte unchanged; hence evaluating a network never
changes any parameter Leaf's value. -/
theorem forward_no_mutation (ftanh : A → A) (fpow : A → A → A) :
    (∀ (st : Store A) (d : A), Extends st (vnew st d).1) ∧
    (∀ (st : Store A) (a b : NodeId), Extends st (vadd st a b).1) ∧
    (∀ (st : Store A) (a b : NodeId), Extends st (vsub st a b).1) ∧
    (∀ (st : Store A) (a b : NodeId), Extends st (vmul st a b).1) ∧
    (∀ (st : Store A) (a : NodeId) (e : A), Extends st (vpow fpow st a e).1) ∧
    (∀ (st : Store A) (a : NodeId), Extends st (vtanh ftanh st a).1) ∧
    (∀ (st : Store A) (a b : NodeId), Extends st (vdiv fpow st a b).1) ∧
    (∀ (st : Store A) (a : NodeId), Extends st (vneg st a).1) ∧
    (∀ (st : Store A) (n : Neuron) (ins : List NodeId),
      Extends st (neuronCall ftanh st n ins).1) ∧
    (∀ (st : Store A) (l : Layer) (ins : List NodeId),
      Extends st (layerForward ftanh st l ins).1) ∧
    (∀ (st : Store A) (m : MLP) (ins : List NodeId),
      Extends st (mlpForward ftanh st m ins).1) ∧
    (∀ (st st' : Store A), Extends st st' → ∀ i, i < st.length →
      st'.get? i = st.get? i ∧ dataOf st' i = dataOf st i ∧ gradOf st' i = gradOf st i) :=
  ⟨fun st d => extends_push st _ _ _,
   fun st a b => extends_push st _ _ _,
   fun st a b => extends_push st _ _ _,
   fun st a b => extends_push st _ _ _,
   fun st a e => extends_push st _ _ _,
   fun st a => extends_push st _ _ _,
   fun st a b => extends_trans (extends_push st _ _ _) (extends_push _ _ _ _),
   fun st a => extends_trans (extends_push st _ _ _) (extends_push _ _ _ _),
   fun st n ins => neuronCall_extends ftanh st n ins,
   fun st l ins => layerForward_extends ftanh st l ins,
   fun st m ins => mlpFold_extends ftanh m.layers st ins,
   fun st st' h i hi =>
     ⟨extends_get h i hi, extends_dataOf h i hi, extends_gradOf h i hi⟩⟩

theorem forward_no_mutation_witness :
    Extends stM (mlpForward (fun v => v) stM mM [2]).1 ∧
    dataOf (mlpForward (fun v => (v : Int)) stM mM [2]).1 0 = dataOf stM 0 := by
  have h := forward_no_mutation (fun v => (v : Int)) (fun _ _ => (0 : Int))
  have hext := h.2.2.2.2.2.2.2.2.2.2.1 stM mM [2]
  exact ⟨hext, (h.2.2.2.2.2.2.2.2.2.2.2 stM _ hext 0 (by decide)).2.1⟩

/-! ## C9: forward values as pure functions of the data environment -/

theorem neuronValV_eq_fold (ftanh : A → A) (dat : NodeId → A) (n : Neuron) (ins : List NodeId) :
    neuronValV ftanh dat n (ins.map dat) =
      ftanh ((ins.zip n.weights).foldl (fun v iw => v + dat iw.2 * dat iw.1) (dat n.bias)) := by
  unfold neuronValV
  rw [List.zip_map, List.foldl_map]
  simp only [Prod.map_snd, Prod.map_fst]

theorem neuronValV_congr (ftanh : A → A) (d1 d2 : NodeId → A) (n : Neuron) (xs : List A)
    (hb : d1 n.bias = d2 n.bias) (hw : ∀ w ∈ n.weights, d1 w = d2 w) :
    neuronValV ftanh d1 n xs = neuronValV ftanh d2 n xs := by
  unfold neuronValV
  rw [hb, List.map_congr_left hw]

theorem layerValsV_congr (ftanh : A → A) (d1 d2 : NodeId → A) (l : Layer) (xs : List A)
    (h : ∀ n ∈ l.neurons, d1 n.bias = d2 n.bias ∧ ∀ w ∈ n.weights, d1 w = d2 w) :
    layerValsV ftanh d1 l xs = layerValsV ftanh d2 l xs := by
  unfold layerValsV
  exact List.map_congr_left (fun n hn => neuronValV_congr ftanh d1 d2 n xs (h n hn).1 (h n hn).2)

theorem valsFold_congr (ftanh : A → A) (d1 d2 : NodeId → A) :
    ∀ (ls : List Layer) (xs : List A),
      (∀ l ∈ ls, ∀ n ∈ l.neurons, d1 n.bias = d2 n.bias ∧ ∀ w ∈ n.weights, d1 w = d2 w) →
      ls.foldl (fun xs l => layerValsV ftanh d1 l xs) xs =
        ls.foldl (fun xs l => layerValsV ftanh d2 l xs) xs := by
  intro ls
  induction ls with
  | nil =>
    intro xs h
    rfl
  | cons l ls ih =>
    intro xs h
    rw [List.foldl_cons, List.foldl_cons,
      layerValsV_congr ftanh d1 d2 l xs (h l (List.mem_cons_self l ls))]
    exact ih _ (fun l' hl' => h l' (List.mem_cons_of_mem l hl'))

theorem neuronFold_facts (st0 : Store A) :
    ∀ (L : List (NodeId × NodeId)) (st1 : Store A) (s : NodeId),
      Extends st0 st1 →
      (∀ iw ∈ L, iw.1 < st0.length ∧ iw.2 < st0.length) →
      s < st1.length →
      ((L.foldl (fun acc iw =>
          let p := vmul acc.1 iw.2 iw.1
          vadd p.1 acc.2 p.2) (st1, s)).2 <
        (L.foldl (fun acc iw =>
          let p := vmul acc.1 iw.2 iw.1
          vadd p.1 acc.2 p.2) (st1, s)).1.length) ∧
      dataOf (L.foldl (fun acc iw =>
          let p := vmul acc.1 iw.2 iw.1
          vadd p.1 acc.2 p.2) (st1, s)).1
        (L.foldl (fun acc iw =>
          let p := vmul acc.1 iw.2 iw.1
          vadd p.1 acc.2 p.2) (st1, s)).2 =
        L.foldl (fun v iw => v + dataOf st0 iw.2 * dataOf st0 iw.1) (dataOf st1 s) := by
  intro L
  induction L with
  | nil =>
    intro st1 s hext hb hs
    exact ⟨hs, rfl⟩
  | cons iw L ih =>
    intro st1 s hext hb hs
    have hiw := hb iw (List.mem_cons_self iw L)
    rw [List.foldl_cons, List.foldl_cons]
    -- the two nodes the step allocates
    have hS2 : (vadd (vmul st1 iw.2 iw.1).1 s (vmul st1 iw.2 iw.1).2).1 =
        (st1 ++ [⟨dataOf st1 iw.2 * dataOf st1 iw.1, none, [iw.2, iw.1], Oper.mul⟩]) ++
        [⟨dataOf (st1 ++ [⟨dataOf st1 iw.2 * dataOf st1 iw.1, none, [iw.2, iw.1], Oper.mul⟩]) s +
            dataOf (st1 ++ [⟨dataOf st1 iw.2 * dataOf st1 iw.1, none, [iw.2, iw.1], Oper.mul⟩])
              st1.length,
          none, [s, st1.length], Oper.add⟩] := rfl
    have hlen2 : (vadd (vmul st1 iw.2 iw.1).1 s (vmul st1 iw.2 iw.1).2).2 <
        (vadd (vmul st1 iw.2 iw.1).1 s (vmul st1 iw.2 iw.1).2).1.length := by
      rw [hS2]
      show (st1 ++ [_]).length < _
      rw [List.length_append, List.length_append]
      simp
    have hext2 : Extends st0 (vadd (vmul st1 iw.2 iw.1).1 s (vmul st1 iw.2 iw.1).2).1 :=
      extends_trans hext
        (extends_trans (extends_push st1 _ _ _) (extends_push (vmul st1 iw.2 iw.1).1 _ _ _))
    have hval : dataOf (vadd (vmul st1 iw.2 iw.1).1 s (vmul st1 iw.2 iw.1).2).1
        (vadd (vmul st1 iw.2 iw.1).1 s (vmul st1 iw.2 iw.1).2).2 =
        dataOf st1 s + dataOf st0 iw.2 * dataOf st0 iw.1 := by
      rw [hS2]
      show dataOf (_ ++ _ :: []) (st1 ++ [_]).length = _
      rw [dataOf_append_self]
      rw [dataOf_append_lt st1 _ s hs, dataOf_append_self st1 _ []]
      rw [extends_dataOf hext iw.2 hiw.2, extends_dataOf hext iw.1 hiw.1]
    obtain ⟨k1, k2⟩ := ih (vadd (vmul st1 iw.2 iw.1).1 s (vmul st1 iw.2 iw.1).2).1
      (vadd (vmul st1 iw.2 iw.1).1 s (vmul st1 iw.2 iw.1).2).2
      hext2 (fun x hx => hb x (List.mem_cons_of_mem iw hx)) hlen2
    refine ⟨k1, ?_⟩
    rw [← hval]
    exact k2

theorem vtanh_facts (ftanh : A → A) (st : Store A) (a : NodeId) :
    (vtanh ftanh st a).2 < (vtanh ftanh st a).1.length ∧
    dataOf (vtanh ftanh st a).1 (vtanh ftanh st a).2 = ftanh (dataOf st a) := by
  constructor
  · simp [vtanh, push]
  · exact dataOf_append_self st _ []

theorem neuronCall_facts (ftanh : A → A) (st : Store A) (n : Neuron) (ins : List NodeId)
    (hbias : n.bias < st.length) (hw : ∀ w ∈ n.weights, w < st.length)
    (hins : ∀ i ∈ ins, i < st.length) :
    (neuronCall ftanh st n ins).2 < (neuronCall ftanh st n ins).1.length ∧
    dataOf (neuronCall ftanh st n ins).1 (neuronCall ftanh st n ins).2 =
      neuronValV ftanh (dataOf st) n (ins.map (dataOf st)) := by
  have hL : ∀ iw ∈ ins.zip n.weights, iw.1 < st.length ∧ iw.2 < st.length := by
    intro iw hiw
    obtain ⟨h1, h2⟩ := List.of_mem_zip hiw
    exact ⟨hins _ h1, hw _ h2⟩
  obtain ⟨k1, k2⟩ := neuronFold_facts st (ins.zip n.weights) st n.bias (extends_refl st) hL hbias
  have htanh := vtanh_facts ftanh
    ((ins.zip n.weights).foldl (fun acc iw =>
      let p := vmul acc.1 iw.2 iw.1
      vadd p.1 acc.2 p.2) (st, n.bias)).1
    ((ins.zip n.weights).foldl (fun acc iw =>
      let p := vmul acc.1 iw.2 iw.1
      vadd p.1 acc.2 p.2) (st, n.bias)).2
  refine ⟨htanh.1, ?_⟩
  rw [neuronValV_eq_fold, ← k2]
  exact htanh.2

theorem layerFold_facts (ftanh : A → A) (st0 : Store A) (ins : List NodeId)
    (hins : ∀ i ∈ ins, i < st0.length) :
    ∀ (ns : List Neuron) (st : Store A) (outs : List NodeId),
      Extends st0 st →
      (∀ n ∈ ns, NeuronIds n st0.length) →
      (∀ o ∈ outs, o < st.length) →
      (∀ o ∈ (ns.foldl (fun acc n =>
          let r := neuronCall ftanh acc.1 n ins
          (r.1, acc.2 ++ [r.2])) (st, outs)).2,
        o < (ns.foldl (fun acc n =>
          let r := neuronCall ftanh acc.1 n ins
          (r.1, acc.2 ++ [r.2])) (st, outs)).1.length) ∧
      ((ns.foldl (fun acc n =>
          let r := neuronCall ftanh acc.1 n ins
          (r.1, acc.2 ++ [r.2])) (st, outs)).2.map
        (dataOf (ns.foldl (fun acc n =>
          let r := neuronCall ftanh acc.1 n ins
          (r.1, acc.2 ++ [r.2])) (st, outs)).1)) =
        outs.map (dataOf st) ++
          ns.map (fun n => neuronValV ftanh (dataOf st0) n (ins.map (dataOf st0))) := by
  intro ns
  induction ns with
  | nil =>
    intro st outs hext hns houts
    exact ⟨houts, by simp⟩
  | cons n ns ih =>
    intro st outs hext hns houts
    rw [List.foldl_cons]
    have hle0 : st0.length ≤ st.length := extends_length hext
    have hnids := hns n (List.mem_cons_self n ns)
    have hfacts := neuronCall_facts ftanh st n ins
      (lt_of_lt_of_le hnids.1 hle0)
      (fun w hw => lt_of_lt_of_le (hnids.2 w hw) hle0)
      (fun i hi => lt_of_lt_of_le (hins i hi) hle0)
    have hextr : Extends st (neuronCall ftanh st n ins).1 := neuronCall_extends ftanh st n ins
    have hxs : ins.map (dataOf st) = ins.map (dataOf st0) :=
      List.map_congr_left (fun i hi => extends_dataOf hext i (hins i hi))
    have hv : dataOf (neuronCall ftanh st n ins).1 (neuronCall ftanh st n ins).2 =
        neuronValV ftanh (dataOf st0) n (ins.map (dataOf st0)) := by
      rw [hfacts.2, hxs]
      exact neuronValV_congr ftanh (dataOf st) (dataOf st0) n _
        (extends_dataOf hext n.bias hnids.1)
        (fun w hw => extends_dataOf hext w (hnids.2 w hw))
    obtain ⟨K1, K2⟩ := ih (neuronCall ftanh st n ins).1 (outs ++ [(neuronCall ftanh st n ins).2])
      (extends_trans hext hextr) (fun n' hn' => hns n' (List.mem_cons_of_mem n hn'))
      (by
        intro o ho
        rcases List.mem_append.mp ho with ho | ho
        · exact lt_of_lt_of_le (houts o ho) (extends_length hextr)
        · rw [List.mem_singleton.mp ho]
          exact hfacts.1)
    refine ⟨K1, ?_⟩
    rw [K2, List.map_append]
    rw [List.map_congr_left (fun o ho => extends_dataOf hextr o (houts o ho))]
    rw [List.map_singleton, hv, List.map_cons, List.append_assoc, List.singleton_append]

theorem mlpFold_facts (ftanh : A → A) :
    ∀ (ls : List Layer) (st : Store A) (ins : List NodeId),
      (∀ l ∈ ls, LayerIds l st.length) →
      (∀ i ∈ ins, i < st.length) →
      (∀ o ∈ (ls.foldl (fun acc l => layerForward ftanh acc.1 l acc.2) (st, ins)).2,
        o < (ls.foldl (fun acc l => layerForward ftanh acc.1 l acc.2) (st, ins)).1.length) ∧
      ((ls.foldl (fun acc l => layerForward ftanh acc.1 l acc.2) (st, ins)).2.map
        (dataOf (ls.foldl (fun acc l => layerForward ftanh acc.1 l acc.2) (st, ins)).1)) =
        ls.foldl (fun xs l => layerValsV ftanh (dataOf st) l xs) (ins.map (dataOf st)) := by
  intro ls
  induction ls with
  | nil =>
    intro st ins hls hins
    exact ⟨hins, rfl⟩
  | cons l ls ih =>
    intro st ins hls hins
    rw [List.foldl_cons, List.foldl_cons]
    have hlayer := layerFold_facts ftanh st ins hins l.neurons st []
      (extends_refl st) (fun n hn => hls l (List.mem_cons_self l ls) n hn)
      (fun o ho => absurd ho (List.not_mem_nil o))
    have hextr : Extends st (layerForward ftanh st l ins).1 :=
      layerForward_extends ftanh st l ins
    have hle : st.length ≤ (layerForward ftanh st l ins).1.length := extends_length hextr
    obtain ⟨K1, K2⟩ := ih (layerForward ftanh st l ins).1 (layerForward ftanh st l ins).2
      (fun l' hl' n hn => ⟨lt_of_lt_of_le (hls l' (List.mem_cons_of_mem l hl') n hn).1 hle,
        fun w hw => lt_of_lt_of_le ((hls l' (List.mem_cons_of_mem l hl') n hn).2 w hw) hle⟩)
      hlayer.1
    refine ⟨K1, ?_⟩
    rw [K2]
    have hvals : (layerForward ftanh st l ins).2.map (dataOf (layerForward ftanh st l ins).1) =
        layerValsV ftanh (dataOf st) l (ins.map (dataOf st)) := by
      rw [show ((layerForward ftanh st l ins).2.map (dataOf (layerForward ftanh st l ins).1)) =
        [] ++ l.neurons.map
          (fun n => neuronValV ftanh (dataOf st) n (ins.map (dataOf st))) from hlayer.2]
      rw [List.nil_append]
      rfl
    rw [hvals]
    exact valsFold_congr ftanh (dataOf (layerForward ftanh st l ins).1) (dataOf st) ls _
      (fun l' hl' n hn =>
        ⟨extends_dataOf hextr n.bias (hls l' (List.mem_cons_of_mem l hl') n hn).1,
         fun w hw => extends_dataOf hextr w ((hls l' (List.mem_cons_of_mem l hl') n hn).2 w hw)⟩)

theorem mlpForward_facts (ftanh : A → A) (st : Store A) (m : MLP) (ins : List NodeId)
    (hm : MLPIds m st.length) (hins : ∀ i ∈ ins, i < st.length) :
    (mlpForward ftanh st m ins).2.map (dataOf (mlpForward ftanh st m ins).1) =
      mlpValsV ftanh (dataOf st) m (ins.map (dataOf st)) :=
  (mlpFold_facts ftanh m.layers st ins hm hins).2

/-- C9: evaluating the same MLP instance on the same input node sequence
twice in succession, with no update step in between, yields identical
output values on both runs — the second forward pass reads the same
parameter and input values, because graph construction only appends. -/
theorem mlp_forward_deterministic (ftanh : A → A) (st : Store A) (m : MLP) (ins : List NodeId)
    (hm : MLPIds m st.length) (hins : ∀ i ∈ ins, i < st.length) :
    (mlpForward ftanh (mlpForward ftanh st m ins).1 m ins).2.map
      (dataOf (mlpForward ftanh (mlpForward ftanh st m ins).1 m ins).1) =
    (mlpForward ftanh st m ins).2.map (dataOf (mlpForward ftanh st m ins).1) := by
  have hext1 : Extends st (mlpForward ftanh st m ins).1 := mlpFold_extends ftanh m.layers st ins
  have hle := extends_length hext1
  have h1 := mlpForward_facts ftanh st m ins hm hins
  have h2 := mlpForward_facts ftanh (mlpForward ftanh st m ins).1 m ins
    (fun l hl n hn => ⟨lt_of_lt_of_le (hm l hl n hn).1 hle,
      fun w hw => lt_of_lt_of_le ((hm l hl n hn).2 w hw) hle⟩)
    (fun i hi => lt_of_lt_of_le (hins i hi) hle)
  rw [h1, h2]
  rw [List.map_congr_left (fun i hi => extends_dataOf hext1 i (hins i hi))]
  unfold mlpValsV
  exact valsFold_congr ftanh (dataOf (mlpForward ftanh st m ins).1) (dataOf st) m.layers _
    (fun l hl n hn =>
      ⟨extends_dataOf hext1 n.bias (hm l hl n hn).1,
       fun w hw => extends_dataOf hext1 w ((hm l hl n hn).2 w hw)⟩)

theorem mlp_forward_deterministic_witness :
    (MLPIds mM stM.length ∧ ∀ i ∈ ([2] : List NodeId), i < stM.length) ∧
    (mlpForward (fun v => v) (mlpForward (fun v => (v : Int)) stM mM [2]).1 mM [2]).2.map
      (dataOf (mlpForward (fun v => v) (mlpForward (fun v => v) stM mM [2]).1 mM [2]).1) =
    (mlpForward (fun v => v) stM mM [2]).2.map (dataOf (mlpForward (fun v => v) stM mM [2]).1) :=
  ⟨⟨by decide, by decide⟩,
    mlp_forward_deterministic (fun v => v) stM mM [2] (by decide) (by decide)⟩

end Gigagrad
